import Mathlib

/- Verification of the windowed-maximum terrain smoothing engine of
   rts/Sim/Misc/SmoothHeightMesh.cpp.

   Heights are modelled as exact rationals.  The external terrain height
   source CGround::GetHeightReal is an arbitrary parameter
   G : ℚ → ℚ → ℚ (world x-coordinate, world z-coordinate ↦ height), and
   readMap->GetCurrMinHeight() / GetCurrMaxHeight() are parameters
   minH / maxH.  Arrays (std::vector) are modelled as total functions
   from ℤ (the flat index) whose out-of-range entries simply carry the
   initial fill value; all index arithmetic is carried out exactly as in
   the source. -/

/-- Exact value of `std::numeric_limits<float>::max()`, the sentinel used
    by the algorithm as minus infinity (negated). -/
def FLOAT_MAX : ℚ := 2 ^ 128 - 2 ^ 104

/-- C++ float→int conversion: truncation toward zero. -/
def ratTrunc (q : ℚ) : ℤ := if 0 ≤ q then ⌊q⌋ else -⌊-q⌋

/-- Model of `std::clamp(v, lo, hi)` on exact values. -/
def stdClamp (v lo hi : ℚ) : ℚ := if v < lo then lo else if hi < v then hi else v

/-- Modelled from the spec: `Clamp` of System/SpringMath.h (header not in
    src/) — "clamping `(x,z)` into grid bounds": the value clamped into
    the closed range `[lo, hi]`. -/
def springClamp (v lo hi : ℚ) : ℚ := max lo (min hi v)

/-- Modelled from the spec: `mix` of System/SpringMath.h (header not in
    src/) — linear interpolation between two values, used by
    `Interpolate` for the bilinear blend of the four mesh corners. -/
def mix (a b t : ℚ) : ℚ := a + (b - a) * t

/-- The integer loop range `a, a+1, ..., a+n-1` (`n` iterations). -/
def intRangeGo (a : ℤ) : ℕ → List ℤ
  | 0 => []
  | n + 1 => a :: intRangeGo (a + 1) n

/-- The integers from `a` to `b` inclusive, in increasing order: the
    index sequence of a C `for` loop running from `a` while `≤ b`. -/
def intRange (a b : ℤ) : List ℤ := intRangeGo a (b + 1 - a).toNat

/- ----------------------------------------------------------------- -/
/- The SmoothHeightMesh object (fields of the class) and its direct
   query / mutation interface. -/

structure SmoothHeightMesh where
  fmaxx : ℚ
  fmaxy : ℚ
  maxx : ℤ
  maxy : ℤ
  resolution : ℚ
  smoothRadius : ℚ
  mesh : ℤ → ℚ
  origMesh : ℤ → ℚ

/-- Model of `SmoothHeightMesh::SetHeight(int index, float h)`:
    `return (mesh[index] = h);` — result value and updated object. -/
def SmoothHeightMesh.SetHeight (m : SmoothHeightMesh) (index : ℤ) (h : ℚ) :
    ℚ × SmoothHeightMesh :=
  (h, { m with mesh := Function.update m.mesh index h })

/-- Model of `SmoothHeightMesh::AddHeight(int index, float h)`:
    `return (mesh[index] += h);` — result value and updated object. -/
def SmoothHeightMesh.AddHeight (m : SmoothHeightMesh) (index : ℤ) (h : ℚ) :
    ℚ × SmoothHeightMesh :=
  (m.mesh index + h, { m with mesh := Function.update m.mesh index (m.mesh index + h) })

/-- Model of `SmoothHeightMesh::SetMaxHeight(int index, float h)`:
    `return (mesh[index] = std::max(h, mesh[index]));`. -/
def SmoothHeightMesh.SetMaxHeight (m : SmoothHeightMesh) (index : ℤ) (h : ℚ) :
    ℚ × SmoothHeightMesh :=
  (max h (m.mesh index), { m with mesh := Function.update m.mesh index (max h (m.mesh index)) })

/- ----------------------------------------------------------------- -/
/- static float Interpolate(float x, float y, const int maxx, const int
   maxy, const float res, const float* heightmap).
   The clamped coordinates and the four corner indices are split into
   named definitions so that the bounds of every array read can be
   stated (cf. the per-line translation in `Interpolate`). -/

/-- Model of `Clamp(x / res, 0.0f, maxx - 1.0f)` of `Interpolate`. -/
def interpCX (x : ℚ) (maxx : ℤ) (res : ℚ) : ℚ :=
  springClamp (x / res) 0 ((maxx : ℚ) - 1)

/-- Model of `const int sx = x;` of `Interpolate` (float→int truncation of the
    clamped coordinate). -/
def interpSX (x : ℚ) (maxx : ℤ) (res : ℚ) : ℤ :=
  ratTrunc (interpCX x maxx res)

/-- Model of `const int sxp1 = std::min(sx + 1, maxx - 1);` of `Interpolate`. -/
def interpSXP1 (x : ℚ) (maxx : ℤ) (res : ℚ) : ℤ :=
  min (interpSX x maxx res + 1) (maxx - 1)

/-- Model of `static float Interpolate(...)` of SmoothHeightMesh.cpp: bilinear
    blend of the four heightmap entries around the clamped coordinate,
    row stride `maxx`. -/
def Interpolate (x y : ℚ) (maxx maxy : ℤ) (res : ℚ) (heightmap : ℤ → ℚ) : ℚ :=
  let dx := interpCX x maxx res - interpSX x maxx res
  let dy := interpCX y maxy res - interpSX y maxy res
  let h1 := heightmap (interpSX x maxx res + interpSX y maxy res * maxx)
  let h2 := heightmap (interpSXP1 x maxx res + interpSX y maxy res * maxx)
  let h3 := heightmap (interpSX x maxx res + interpSXP1 y maxy res * maxx)
  let h4 := heightmap (interpSXP1 x maxx res + interpSXP1 y maxy res * maxx)
  mix (mix h1 h2 dx) (mix h3 h4 dx) dy

/-- Model of `SmoothHeightMesh::GetHeight(float x, float y)`. -/
def SmoothHeightMesh.GetHeight (m : SmoothHeightMesh) (x y : ℚ) : ℚ :=
  Interpolate x y m.maxx m.maxy m.resolution m.mesh

/-- Model of `SmoothHeightMesh::GetHeightAboveWater(float x, float y)`. -/
def SmoothHeightMesh.GetHeightAboveWater (m : SmoothHeightMesh) (x y : ℚ) : ℚ :=
  max 0 (Interpolate x y m.maxx m.maxy m.resolution m.mesh)

/- ----------------------------------------------------------------- -/
/- The sliding-window maximum pass.  The per-build state is the pair of
   vectors colsMaxima / maximaRows, modelled as total functions indexed
   by the column number. -/

structure SWState where
  colsMaxima : ℤ → ℚ
  maximaRows : ℤ → ℤ

/-- The inner-loop body (per column `x`) of `FindMaximumColumnHeights`. -/
def FindMaximumColumnHeightsBody (res : ℚ) (G : ℚ → ℚ → ℚ) (y : ℤ)
    (s : SWState) (x : ℤ) : SWState :=
  let curh := G (x * res) (y * res)
  if curh > s.colsMaxima x then
    { colsMaxima := Function.update s.colsMaxima x curh,
      maximaRows := Function.update s.maximaRows x y }
  else s

/-- Model of `FindMaximumColumnHeights`: seed `colsMaxima`/`maximaRows` with the
    maximum height of each column over the rows `0 .. min(maxy, winSize)`
    and the row where it was first attained. -/
def FindMaximumColumnHeights (maxx maxy winSize : ℤ) (res : ℚ)
    (G : ℚ → ℚ → ℚ) (s : SWState) : SWState :=
  (intRange 0 (min maxy winSize)).foldl (fun s (y : ℤ) =>
    (intRange 0 maxx).foldl (FindMaximumColumnHeightsBody res G y) s) s

/-- The loop body (per column `x`) of `AdvanceMaximaRows`. -/
def AdvanceMaximaRowsBody (y : ℤ) (res : ℚ) (G : ℚ → ℚ → ℚ)
    (s : SWState) (x : ℤ) : SWState :=
  if s.maximaRows x = y - 1 then
    if G (x * res) (y * res) = s.colsMaxima x then
      { s with maximaRows := Function.update s.maximaRows x y }
    else s
  else s

/-- Model of `AdvanceMaximaRows`: push a recorded maximum row forward to the
    current row when the height there ties the column maximum. -/
def AdvanceMaximaRows (y maxx : ℤ) (res : ℚ) (G : ℚ → ℚ → ℚ)
    (s : SWState) : SWState :=
  (intRange 0 maxx).foldl (AdvanceMaximaRowsBody y res G) s

/-- The loop body (per cell `x` of row `y`) of `FindRadialMaximum`. -/
def FindRadialMaximumBody (y maxx winSize : ℤ) (colsMaxima : ℤ → ℚ)
    (mesh : ℤ → ℚ) (x : ℤ) : ℤ → ℚ :=
  let startx := max (x - winSize) 0
  let endx := min (maxx - 1) (x + winSize)
  let maxRowHeight :=
    (intRange startx endx).foldl (fun m i => max (colsMaxima i) m) (-FLOAT_MAX)
  Function.update mesh (x + y * maxx) maxRowHeight

/-- Model of `FindRadialMaximum`: for every cell of row `y` store into the mesh the
    maximum of `colsMaxima` over the horizontal window, flat index
    `x + y * maxx`. -/
def FindRadialMaximum (y maxx winSize : ℤ)
    (colsMaxima : ℤ → ℚ) (mesh : ℤ → ℚ) : ℤ → ℚ :=
  (intRange 0 (maxx - 1)).foldl (FindRadialMaximumBody y maxx winSize colsMaxima) mesh

/-- The rescan-loop body (per row `y1`, fixed column `x`) of
    `FixRemainingMaxima`. -/
def FixRescanBody (res : ℚ) (G : ℚ → ℚ → ℚ) (x : ℤ)
    (s : SWState) (y1 : ℤ) : SWState :=
  let h := G (x * res) (y1 * res)
  if h > s.colsMaxima x then
    { colsMaxima := Function.update s.colsMaxima x h,
      maximaRows := Function.update s.maximaRows x y1 }
  else if s.colsMaxima x = h then
    { s with maximaRows := Function.update s.maximaRows x y1 }
  else s

/-- The outer-loop body (per column `x`) of `FixRemainingMaxima`. -/
def FixRemainingMaximaBody (y maxy winSize : ℤ) (res : ℚ) (G : ℚ → ℚ → ℚ)
    (s : SWState) (x : ℤ) : SWState :=
  let nextrow := y + winSize + 1
  if s.maximaRows x ≤ y - winSize then
    (intRange (max 0 (y - winSize + 1)) (min maxy nextrow)).foldl
      (FixRescanBody res G x)
      { s with colsMaxima := Function.update s.colsMaxima x (-FLOAT_MAX) }
  else if nextrow ≤ maxy then
    let h := G (x * res) (nextrow * res)
    if h > s.colsMaxima x then
      { colsMaxima := Function.update s.colsMaxima x h,
        maximaRows := Function.update s.maximaRows x nextrow }
    else s
  else s

/-- Model of `FixRemainingMaxima`: slide the vertical window of every column one
    row down — rescan the window when the recorded maximum dropped out of
    it, otherwise just test the newly entered row. -/
def FixRemainingMaxima (y maxx maxy winSize : ℤ) (res : ℚ)
    (G : ℚ → ℚ → ℚ) (s : SWState) : SWState :=
  (intRange 0 maxx).foldl (FixRemainingMaximaBody y maxy winSize res G) s

/-- The body of the per-row loop of `MakeSmoothMesh`
    (AdvanceMaximaRows; FindRadialMaximum; FixRemainingMaxima). -/
def smoothRowBody (maxx maxy winSize : ℤ) (res : ℚ) (G : ℚ → ℚ → ℚ)
    (p : SWState × (ℤ → ℚ)) (y : ℤ) : SWState × (ℤ → ℚ) :=
  let s := AdvanceMaximaRows y maxx res G p.1
  let mesh := FindRadialMaximum y maxx winSize s.colsMaxima p.2
  let s2 := FixRemainingMaxima y maxx maxy winSize res G s
  (s2, mesh)

/-- Initial sliding-window state of `MakeSmoothMesh`
    (colsMaxima filled with `-FLT_MAX`, maximaRows with `-1`). -/
def initialSWState : SWState :=
  { colsMaxima := fun _ => -FLOAT_MAX, maximaRows := fun _ => -1 }

/-- State and mesh after the bootstrap and the per-row loop of
    `MakeSmoothMesh` has processed rows `0 .. y` (the mesh vector is
    zero-initialised by `resize`). -/
def windowedPassUpTo (maxx maxy winSize : ℤ) (res : ℚ) (G : ℚ → ℚ → ℚ)
    (y : ℤ) : SWState × (ℤ → ℚ) :=
  (intRange 0 y).foldl (smoothRowBody maxx maxy winSize res G)
    (FindMaximumColumnHeights maxx maxy winSize res G initialSWState, fun _ => 0)

/-- The complete sliding-window maximum pass of `MakeSmoothMesh`
    (rows `0 .. maxy`), returning the pre-blur mesh. -/
def windowedPass (maxx maxy winSize : ℤ) (res : ℚ) (G : ℚ → ℚ → ℚ) : ℤ → ℚ :=
  (windowedPassUpTo maxx maxy winSize res G maxy).2

/- Per-column views of the sliding-window loop bodies: each body touches
   only the `colsMaxima`/`maximaRows` entries of the column it visits, so
   its effect is a pure step on the pair `(colsMaxima[x], maximaRows[x])`.
   These steps are what the invariant proof reasons about. -/

/-- Joint update of both per-column vectors at column `x`. -/
def colUpdate (s : SWState) (x : ℤ) (p : ℚ × ℤ) : SWState :=
  { colsMaxima := Function.update s.colsMaxima x p.1,
    maximaRows := Function.update s.maximaRows x p.2 }

/-- The pair at column `x`. -/
def colPair (s : SWState) (x : ℤ) : ℚ × ℤ := (s.colsMaxima x, s.maximaRows x)

/-- Per-column step of the bootstrap scan at row `y`. -/
def bootStep (res : ℚ) (G : ℚ → ℚ → ℚ) (x : ℤ) (p : ℚ × ℤ) (y : ℤ) : ℚ × ℤ :=
  if G (x * res) (y * res) > p.1 then (G (x * res) (y * res), y) else p

/-- Per-column step of `AdvanceMaximaRows` at row `y`. -/
def advStep (y : ℤ) (res : ℚ) (G : ℚ → ℚ → ℚ) (x : ℤ) (p : ℚ × ℤ) : ℚ × ℤ :=
  if p.2 = y - 1 then
    (if G (x * res) (y * res) = p.1 then (p.1, y) else p)
  else p

/-- Per-column step of the rescan loop of `FixRemainingMaxima`. -/
def rescanStep (res : ℚ) (G : ℚ → ℚ → ℚ) (x : ℤ) (p : ℚ × ℤ) (y1 : ℤ) : ℚ × ℤ :=
  if G (x * res) (y1 * res) > p.1 then (G (x * res) (y1 * res), y1)
  else if p.1 = G (x * res) (y1 * res) then (p.1, y1)
  else p

/-- Per-column effect of `FixRemainingMaximaBody`. -/
def fixColStep (y maxy winSize : ℤ) (res : ℚ) (G : ℚ → ℚ → ℚ) (x : ℤ)
    (p : ℚ × ℤ) : ℚ × ℤ :=
  if p.2 ≤ y - winSize then
    (intRange (max 0 (y - winSize + 1)) (min maxy (y + winSize + 1))).foldl
      (rescanStep res G x) (-FLOAT_MAX, p.2)
  else if y + winSize + 1 ≤ maxy then
    (if G (x * res) (((y + winSize + 1 : ℤ) : ℚ) * res) > p.1
      then (G (x * res) (((y + winSize + 1 : ℤ) : ℚ) * res), y + winSize + 1) else p)
  else p

/- ----------------------------------------------------------------- -/
/- The separable blur pass. -/

/-- The 1D convolution sum of `BlurHorizontal` at cell `(x, y)`:
    `avg = Σ kernel[|x1-x|] * mesh[clamp(x1) + y*lineSize]` over
    `x1 ∈ [x-blurSize, x+blurSize]`. -/
def blurAvgRow (maxx blurSize : ℤ) (kernel : List ℚ) (mesh : ℤ → ℚ)
    (x y : ℤ) : ℚ :=
  (intRange (x - blurSize) (x + blurSize)).foldl
    (fun a (x1 : ℤ) => a + kernel.getD (x1 - x).natAbs 0 *
      mesh (max 0 (min (maxx - 1) x1) + y * maxx)) 0

/-- The 1D convolution sum of `BlurVertical` at cell `(x, y)`. -/
def blurAvgCol (maxx maxy blurSize : ℤ) (kernel : List ℚ) (mesh : ℤ → ℚ)
    (x y : ℤ) : ℚ :=
  (intRange (y - blurSize) (y + blurSize)).foldl
    (fun a (y1 : ℤ) => a + kernel.getD (y1 - y).natAbs 0 *
      mesh (x + max 0 (min (maxy - 1) y1) * maxx)) 0

/-- Model of `BlurHorizontal`: 1D kernel convolution along each row, source mesh
    read clamped to the row ends, result maxed with the true terrain
    height and clamped to `[minH, maxH]`, written into `smoothed`. -/
def BlurHorizontal (maxx maxy blurSize : ℤ) (res : ℚ) (kernel : List ℚ)
    (minH maxH : ℚ) (G : ℚ → ℚ → ℚ) (mesh smoothed : ℤ → ℚ) : ℤ → ℚ :=
  let lineSize := maxx
  (intRange 0 (maxy - 1)).foldl (fun smoothed (y : ℤ) =>
    (intRange 0 (maxx - 1)).foldl (fun smoothed (x : ℤ) =>
      let avg := blurAvgRow maxx blurSize kernel mesh x y
      let ghaw := G (x * res) (y * res)
      let s1 := Function.update smoothed (x + y * lineSize) (max ghaw avg)
      Function.update s1 (x + y * lineSize)
        (stdClamp (s1 (x + y * lineSize)) minH maxH)) smoothed) smoothed

/-- Model of `BlurVertical`: 1D kernel convolution along each column, analogous to
    `BlurHorizontal`. -/
def BlurVertical (maxx maxy blurSize : ℤ) (res : ℚ) (kernel : List ℚ)
    (minH maxH : ℚ) (G : ℚ → ℚ → ℚ) (mesh smoothed : ℤ → ℚ) : ℤ → ℚ :=
  let lineSize := maxx
  (intRange 0 (maxx - 1)).foldl (fun smoothed (x : ℤ) =>
    (intRange 0 (maxy - 1)).foldl (fun smoothed (y : ℤ) =>
      let avg := blurAvgCol maxx maxy blurSize kernel mesh x y
      let ghaw := G (x * res) (y * res)
      let s1 := Function.update smoothed (x + y * lineSize) (max ghaw avg)
      Function.update s1 (x + y * lineSize)
        (stdClamp (s1 (x + y * lineSize)) minH maxH)) smoothed) smoothed

/-- The value `BlurHorizontal` stores at cell `(x, y)`: the convolution
    average maxed with the true height, then clamped (the two successive
    stores to `smoothed[x + y*lineSize]` composed). -/
def blurHVal (maxx blurSize : ℤ) (res : ℚ) (kernel : List ℚ)
    (minH maxH : ℚ) (G : ℚ → ℚ → ℚ) (mesh : ℤ → ℚ) (x y : ℤ) : ℚ :=
  stdClamp (max (G (x * res) (y * res)) (blurAvgRow maxx blurSize kernel mesh x y))
    minH maxH

/-- The value `BlurVertical` stores at cell `(x, y)`. -/
def blurVVal (maxx maxy blurSize : ℤ) (res : ℚ) (kernel : List ℚ)
    (minH maxH : ℚ) (G : ℚ → ℚ → ℚ) (mesh : ℤ → ℚ) (x y : ℤ) : ℚ :=
  stdClamp (max (G (x * res) (y * res)) (blurAvgCol maxx maxy blurSize kernel mesh x y))
    minH maxH

/-- The blur loop of `MakeSmoothMesh`: each iteration runs
    `BlurHorizontal` into the scratch buffer, swaps, runs `BlurVertical`
    into the (new) scratch buffer and swaps again.  The pair is
    `(mesh, origMesh)`. -/
def blurPasses (maxx maxy blurSize : ℤ) (res : ℚ) (kernel : List ℚ)
    (minH maxH : ℚ) (G : ℚ → ℚ → ℚ) :
    ℕ → (ℤ → ℚ) × (ℤ → ℚ) → (ℤ → ℚ) × (ℤ → ℚ)
  | 0, p => p
  | n + 1, p =>
    let o1 := BlurHorizontal maxx maxy blurSize res kernel minH maxH G p.1 p.2
    let m1 := o1
    let o2 := p.1
    let o3 := BlurVertical maxx maxy blurSize res kernel minH maxH G m1 o2
    blurPasses maxx maxy blurSize res kernel minH maxH G n (o3, m1)

/-- The gaussian point sample `gaussianG(x, sigma)` of `MakeSmoothMesh`
    is a transcendental float expression
    (`0.3989422804f * expf(-0.5f * x * x / (sigma * sigma)) / sigma`);
    the kernel construction is verified for an arbitrary positive sample
    function `g` standing for `fun x => gaussianG x sigma` at the fixed
    `sigma = 5`.  This is `fillGaussianKernelFunc`: the taps
    `g 0 .. g blurSize`, each divided by the weighted sum
    `g 0 + 2*g 1 + ... + 2*g blurSize`. -/
def gaussKernelSum (blurSize : ℤ) (g : ℤ → ℚ) : ℚ :=
  (intRange 1 blurSize).foldl (fun s (i : ℤ) => s + 2 * g i) (g 0)

/-- The normalization step of `fillGaussianKernelFunc`: every tap divided
    by `gaussKernelSum`. -/
def fillGaussianKernelFunc (blurSize : ℤ) (g : ℤ → ℚ) : List ℚ :=
  ((intRange 0 blurSize).map g).map (fun gk => gk / gaussKernelSum blurSize g)

/-- Model of `winSize = smoothRadius / resolution` of `MakeSmoothMesh` (float
    division truncated to int). -/
def meshWinSize (smoothRadius resolution : ℚ) : ℤ :=
  ratTrunc (smoothRadius / resolution)

/-- Model of `blurSize = std::max(1, winSize / 2)` of `MakeSmoothMesh` (C++ int
    division truncates toward zero). -/
def meshBlurSize (winSize : ℤ) : ℤ := max 1 (winSize.tdiv 2)

/-- Model of `constexpr int blurPassesCount = 2;` of `MakeSmoothMesh`. -/
def blurPassesCount : ℕ := 2

/-- Model of `(maxx + 1) * (maxy + 1)`: the number of floats allocated for the
    mesh (`mesh.resize((maxx + 1) * (maxy + 1), 0.0f)`). -/
def meshAllocSize (maxx maxy : ℤ) : ℤ := (maxx + 1) * (maxy + 1)

/-- Model of `SmoothHeightMesh::MakeSmoothMesh()` with the number of blur passes
    as a parameter (the source fixes it to `blurPassesCount = 2`):
    sliding-window maximum pass, `passes` blur pass pairs with
    double-buffer swaps, then the final copy of `mesh` into `origMesh`.
    Returns the final `(mesh, origMesh)` pair. -/
def MakeSmoothMesh (maxx maxy : ℤ) (res smoothRad : ℚ) (minH maxH : ℚ)
    (G : ℚ → ℚ → ℚ) (g : ℤ → ℚ) (passes : ℕ) : (ℤ → ℚ) × (ℤ → ℚ) :=
  let winSize := meshWinSize smoothRad res
  let blurSize := meshBlurSize winSize
  let kernel := fillGaussianKernelFunc blurSize g
  let w := windowedPass maxx maxy winSize res G
  let p := blurPasses maxx maxy blurSize res kernel minH maxH G passes
    (w, fun _ => 0)
  (p.1, p.1)

/-- Model of `SmoothHeightMesh::Init(float mx, float my, float res, float
    smoothRad)`: store the grid geometry (`maxx = mx / res + 1` truncated,
    likewise `maxy`), keep `res` as given, clamp the radius with
    `smoothRadius = std::max(1.0f, smoothRad)`, then run
    `MakeSmoothMesh()`. -/
def SmoothHeightMesh.Init (mx my res smoothRad : ℚ) (minH maxH : ℚ)
    (G : ℚ → ℚ → ℚ) (g : ℤ → ℚ) : SmoothHeightMesh :=
  let maxx := ratTrunc (mx / res + 1)
  let maxy := ratTrunc (my / res + 1)
  let radius := max 1 smoothRad
  let p := MakeSmoothMesh maxx maxy res radius minH maxH G g blurPassesCount
  { fmaxx := mx, fmaxy := my, maxx := maxx, maxy := maxy,
    resolution := res, smoothRadius := radius,
    mesh := p.1, origMesh := p.2 }

/- ----------------------------------------------------------------- -/
/- Specification-side definitions (reference values the code is compared
   against) and concrete sample data for instantiating theorems. -/

/-- Fold-maximum of `f` over a list of indices seeded with `v` — the
    shape of every running-maximum loop of the source. -/
def foldMax (f : ℤ → ℚ) (v : ℚ) (l : List ℤ) : ℚ :=
  l.foldl (fun m i => max (f i) m) v

/-- The true maximum terrain height in column `x` over grid rows
    `lo .. hi`, seeded with `-FLT_MAX` like the running maxima of the
    algorithm (so an empty row range yields `-FLT_MAX`). -/
def heightColMax (res : ℚ) (G : ℚ → ℚ → ℚ) (x lo hi : ℤ) : ℚ :=
  foldMax (fun y1 => G (x * res) (y1 * res)) (-FLOAT_MAX) (intRange lo hi)

/-- The true maximum terrain height over the cell rectangle
    `[xlo, xhi] × [ylo, yhi]`. -/
def heightSquareMax (res : ℚ) (G : ℚ → ℚ → ℚ) (xlo xhi ylo yhi : ℤ) : ℚ :=
  foldMax (fun i => heightColMax res G i ylo yhi) (-FLOAT_MAX) (intRange xlo xhi)

/-- Follows the spec's words (§4.3): "bilinear-interpolate the 4 nearest
    mesh corners after clamping `(x,z)` into grid bounds" — the corner at
    the floor of the clamped position and its successors (clamped to the
    last row/column), blended with the weights
    `(1-dx)(1-dy), dx(1-dy), (1-dx)dy, dx·dy`. -/
def bilinearSpec (x z : ℚ) (maxx maxy : ℤ) (res : ℚ) (heightmap : ℤ → ℚ) : ℚ :=
  let cx := springClamp (x / res) 0 ((maxx : ℚ) - 1)
  let cz := springClamp (z / res) 0 ((maxy : ℚ) - 1)
  let sx := ⌊cx⌋
  let sz := ⌊cz⌋
  let dx := cx - (sx : ℚ)
  let dz := cz - (sz : ℚ)
  let sxp1 := min (sx + 1) (maxx - 1)
  let szp1 := min (sz + 1) (maxy - 1)
  (1 - dx) * (1 - dz) * heightmap (sx + sz * maxx) +
    dx * (1 - dz) * heightmap (sxp1 + sz * maxx) +
    (1 - dx) * dz * heightmap (sx + szp1 * maxx) +
    dx * dz * heightmap (sxp1 + szp1 * maxx)

/-- A concrete sample object (a built 100×100-unit world would carry
    larger fields; the values here are arbitrary) used to instantiate the
    general theorems at concrete inputs. -/
def sampleMesh : SmoothHeightMesh :=
  { fmaxx := 16, fmaxy := 16, maxx := 2, maxy := 2, resolution := 8,
    smoothRadius := 16, mesh := fun i => (i : ℚ), origMesh := fun i => 2 * (i : ℚ) }

/-- The sliding-window invariant: ready to process row `y`, every
    column's running maximum is the true column maximum over the vertical
    window centered at `y` (clamped), and the recorded row lies in that
    window and attains it. -/
def swInv (maxx maxy winSize : ℤ) (res : ℚ) (G : ℚ → ℚ → ℚ)
    (y : ℤ) (s : SWState) : Prop :=
  ∀ x : ℤ, 0 ≤ x → x ≤ maxx →
    s.colsMaxima x
        = heightColMax res G x (max 0 (y - winSize)) (min maxy (y + winSize)) ∧
      max 0 (y - winSize) ≤ s.maximaRows x ∧
      s.maximaRows x ≤ min maxy (y + winSize) ∧
      G (x * res) (s.maximaRows x * res) = s.colsMaxima x

/- ----------------------------------------------------------------- -/
/- Theorems.  Properties of the integer loop ranges. -/

theorem mem_intRangeGo {x a : ℤ} {n : ℕ} :
    x ∈ intRangeGo a n ↔ a ≤ x ∧ x < a + n := by
  induction n generalizing a with
  | zero => simp [intRangeGo]
  | succ m ih =>
    simp only [intRangeGo, List.mem_cons, ih]
    omega

theorem mem_intRange {x a b : ℤ} : x ∈ intRange a b ↔ a ≤ x ∧ x ≤ b := by
  rw [intRange, mem_intRangeGo]
  omega

theorem intRange_eq_nil {a b : ℤ} (h : b < a) : intRange a b = [] := by
  rw [intRange]
  have : (b + 1 - a).toNat = 0 := by omega
  rw [this]; rfl

theorem intRange_cons {a b : ℤ} (h : a ≤ b) :
    intRange a b = a :: intRange (a + 1) b := by
  rw [intRange, intRange]
  have h1 : (b + 1 - a).toNat = (b + 1 - (a + 1)).toNat + 1 := by omega
  rw [h1]; rfl

theorem intRangeGo_snoc (a : ℤ) (n : ℕ) :
    intRangeGo a (n + 1) = intRangeGo a n ++ [a + n] := by
  induction n generalizing a with
  | zero => simp [intRangeGo]
  | succ m ih =>
    rw [intRangeGo, ih (a + 1), intRangeGo]
    simp only [List.cons_append]
    congr 3
    push_cast
    ring

theorem intRange_snoc {a b : ℤ} (h : a ≤ b) :
    intRange a b = intRange a (b - 1) ++ [b] := by
  rw [intRange, intRange]
  have h1 : (b + 1 - a).toNat = (b - 1 + 1 - a).toNat + 1 := by omega
  rw [h1, intRangeGo_snoc]
  congr 2
  omega

theorem intRange_ne_nil {a b : ℤ} (h : a ≤ b) : intRange a b ≠ [] := by
  rw [intRange_cons h]
  exact List.cons_ne_nil _ _

theorem intRange_nodup (a b : ℤ) : (intRange a b).Nodup := by
  rcases le_or_lt a b with h | h
  · rw [intRange]
    generalize hn : (b + 1 - a).toNat = n
    clear hn h
    induction n generalizing a with
    | zero => simp [intRangeGo]
    | succ m ih =>
      refine List.nodup_cons.mpr ⟨?_, ih (a + 1)⟩
      rw [mem_intRangeGo]
      omega
  · rw [intRange_eq_nil h]; exact List.nodup_nil


/- Properties of foldMax. -/

theorem foldMax_nil (f : ℤ → ℚ) (v : ℚ) : foldMax f v [] = v := rfl

theorem foldMax_max (f : ℤ → ℚ) (a b : ℚ) (l : List ℤ) :
    foldMax f (max a b) l = max a (foldMax f b l) := by
  induction l generalizing b with
  | nil => rfl
  | cons i t ih =>
    show foldMax f (max (f i) (max a b)) t = max a (foldMax f (max (f i) b) t)
    rw [max_left_comm, ih]

theorem foldMax_cons (f : ℤ → ℚ) (v : ℚ) (i : ℤ) (t : List ℤ) :
    foldMax f v (i :: t) = max (f i) (foldMax f v t) := by
  show foldMax f (max (f i) v) t = max (f i) (foldMax f v t)
  rw [foldMax_max]

theorem foldMax_append (f : ℤ → ℚ) (v : ℚ) (l t : List ℤ) :
    foldMax f v (l ++ t) = foldMax f (foldMax f v l) t := by
  simp [foldMax, List.foldl_append]

theorem le_foldMax_init (f : ℤ → ℚ) (v : ℚ) (l : List ℤ) : v ≤ foldMax f v l := by
  induction l with
  | nil => exact le_refl v
  | cons i t ih => rw [foldMax_cons]; exact le_max_of_le_right ih

theorem le_foldMax (f : ℤ → ℚ) (v : ℚ) {l : List ℤ} {x : ℤ} (hx : x ∈ l) :
    f x ≤ foldMax f v l := by
  induction l with
  | nil => cases hx
  | cons i t ih =>
    rw [foldMax_cons]
    rcases List.mem_cons.mp hx with h | h
    · subst h; exact le_max_left _ _
    · exact le_max_of_le_right (ih h)

theorem foldMax_le (f : ℤ → ℚ) {v c : ℚ} {l : List ℤ} (hv : v ≤ c)
    (hl : ∀ x ∈ l, f x ≤ c) : foldMax f v l ≤ c := by
  induction l with
  | nil => exact hv
  | cons i t ih =>
    rw [foldMax_cons]
    exact max_le (hl i (List.mem_cons_self i t)) (ih (fun x hx => hl x (List.mem_cons_of_mem i hx)))

theorem foldMax_attained (f : ℤ → ℚ) (v : ℚ) (l : List ℤ) :
    foldMax f v l = v ∨ ∃ x ∈ l, foldMax f v l = f x := by
  induction l with
  | nil => exact Or.inl rfl
  | cons i t ih =>
    rw [foldMax_cons]
    rcases le_total (f i) (foldMax f v t) with h | h
    · rw [max_eq_right h]
      rcases ih with h1 | ⟨x, hx, h1⟩
      · exact Or.inl h1
      · exact Or.inr ⟨x, List.mem_cons_of_mem i hx, h1⟩
    · rw [max_eq_left h]
      exact Or.inr ⟨i, List.mem_cons_self i t, rfl⟩

theorem foldMax_congr {f g : ℤ → ℚ} (v : ℚ) {l : List ℤ}
    (h : ∀ x ∈ l, f x = g x) : foldMax f v l = foldMax g v l := by
  induction l with
  | nil => rfl
  | cons i t ih =>
    rw [foldMax_cons, foldMax_cons, h i (List.mem_cons_self i t),
      ih (fun x hx => h x (List.mem_cons_of_mem i hx))]

/-- A fold-maximum strictly above its seed is attained on the list. -/
theorem foldMax_attained_of_lt {f : ℤ → ℚ} {v : ℚ} {l : List ℤ}
    (h : v < foldMax f v l) : ∃ x ∈ l, foldMax f v l = f x := by
  rcases foldMax_attained f v l with h1 | h1
  · rw [h1] at h; exact absurd h (lt_irrefl v)
  · exact h1

/-- Equality of two fold-maxima by mutual domination (both seeded with
    `-FLT_MAX`). -/
theorem foldMax_eq_foldMax {f g : ℤ → ℚ} {l t : List ℤ} {v : ℚ}
    (h1 : ∀ x ∈ l, f x ≤ foldMax g v t)
    (h2 : ∀ x ∈ t, g x ≤ foldMax f v l) :
    foldMax f v l = foldMax g v t := by
  apply le_antisymm
  · exact foldMax_le f (le_foldMax_init g v t) h1
  · exact foldMax_le g (le_foldMax_init f v l) h2

/- ----------------------------------------------------------------- -/
/- C3: Init on malformed input. -/

/-- C3 counterexample: `Init` called with `smoothRad = -5` (malformed:
    `smoothRadius ≤ 0`) does not fail fast — the bad value is silently
    clamped into the legal range: the stored `smoothRadius` is `1`. -/
theorem init_negative_radius_clamped_counterexample :
    (SmoothHeightMesh.Init 16 16 8 (-5) 0 0 (fun _ _ => 0) (fun _ => 1)).smoothRadius
      = 1 := by
  rfl

/-- C3 (amended): `Init` performs no validation at all: for every input
    (including `smoothRad ≤ 0` and negative `res`) it stores
    `smoothRadius = max(1, smoothRad)` — silently clamping a malformed
    radius into the legal range — and stores `resolution = res` unchecked;
    there is no fatal/assertion path. -/
theorem init_no_validation (mx my res smoothRad minH maxH : ℚ)
    (G : ℚ → ℚ → ℚ) (g : ℤ → ℚ) :
    (SmoothHeightMesh.Init mx my res smoothRad minH maxH G g).smoothRadius
        = max 1 smoothRad ∧
      (SmoothHeightMesh.Init mx my res smoothRad minH maxH G g).resolution = res ∧
      (SmoothHeightMesh.Init mx my res smoothRad minH maxH G g).maxx
        = ratTrunc (mx / res + 1) :=
  ⟨rfl, rfl, rfl⟩

/- ----------------------------------------------------------------- -/
/- C8: AddHeight frame property. -/

/-- C8: for every mesh object, valid flat index `i` and delta `h`,
    `AddHeight(i, h)` returns the old value plus `h`, stores exactly that
    at cell `i`, and leaves every other cell, the `origMesh` scratch
    buffer, the grid dimensions and the resolution unchanged. -/
theorem addHeight_frame (m : SmoothHeightMesh) (i : ℤ) (h : ℚ)
    (h0 : 0 ≤ i) (h1 : i < meshAllocSize m.maxx m.maxy) :
    (m.AddHeight i h).1 = m.mesh i + h ∧
      (m.AddHeight i h).2.mesh i = m.mesh i + h ∧
      (∀ j : ℤ, j ≠ i → (m.AddHeight i h).2.mesh j = m.mesh j) ∧
      (m.AddHeight i h).2.origMesh = m.origMesh ∧
      (m.AddHeight i h).2.maxx = m.maxx ∧
      (m.AddHeight i h).2.maxy = m.maxy ∧
      (m.AddHeight i h).2.resolution = m.resolution := by
  refine ⟨rfl, ?_, ?_, rfl, rfl, rfl, rfl⟩
  · simp [SmoothHeightMesh.AddHeight]
  · intro j hj
    simp [SmoothHeightMesh.AddHeight, Function.update_noteq hj]

/-- C8 witness: the frame property instantiated on the sample object at
    index 3 with delta 2 (its hypotheses hold: `0 ≤ 3 < 9`). -/
theorem addHeight_frame_witness :
    ((0 : ℤ) ≤ 3 ∧ (3 : ℤ) < meshAllocSize sampleMesh.maxx sampleMesh.maxy) ∧
      ((sampleMesh.AddHeight 3 2).1 = sampleMesh.mesh 3 + 2 ∧
        (sampleMesh.AddHeight 3 2).2.mesh 3 = sampleMesh.mesh 3 + 2 ∧
        (∀ j : ℤ, j ≠ 3 → (sampleMesh.AddHeight 3 2).2.mesh j = sampleMesh.mesh j) ∧
        (sampleMesh.AddHeight 3 2).2.origMesh = sampleMesh.origMesh ∧
        (sampleMesh.AddHeight 3 2).2.maxx = sampleMesh.maxx ∧
        (sampleMesh.AddHeight 3 2).2.maxy = sampleMesh.maxy ∧
        (sampleMesh.AddHeight 3 2).2.resolution = sampleMesh.resolution) :=
  ⟨⟨by decide, by decide⟩, addHeight_frame sampleMesh 3 2 (by decide) (by decide)⟩

/- ----------------------------------------------------------------- -/
/- C9: SetMaxHeight algebra. -/

/-- C9: `SetMaxHeight(i, h)` stores `max(h, old)` and returns that value;
    the cell never decreases; the call is idempotent (same `h` twice
    equals once, in stored mesh and in returned value); and when
    `h ≤ old` the whole mesh is left unchanged. -/
theorem setMaxHeight_monotone_idempotent (m : SmoothHeightMesh) (i : ℤ) (h : ℚ)
    (h0 : 0 ≤ i) (h1 : i < meshAllocSize m.maxx m.maxy) :
    (m.SetMaxHeight i h).1 = max h (m.mesh i) ∧
      (m.SetMaxHeight i h).2.mesh i = max h (m.mesh i) ∧
      m.mesh i ≤ (m.SetMaxHeight i h).2.mesh i ∧
      ((m.SetMaxHeight i h).2.SetMaxHeight i h).2.mesh = (m.SetMaxHeight i h).2.mesh ∧
      ((m.SetMaxHeight i h).2.SetMaxHeight i h).1 = (m.SetMaxHeight i h).1 ∧
      (h ≤ m.mesh i → (m.SetMaxHeight i h).2.mesh = m.mesh) := by
  have hmesh : (m.SetMaxHeight i h).2.mesh i = max h (m.mesh i) := by
    simp [SmoothHeightMesh.SetMaxHeight]
  refine ⟨rfl, hmesh, ?_, ?_, ?_, ?_⟩
  · rw [hmesh]; exact le_max_right _ _
  · show Function.update (m.SetMaxHeight i h).2.mesh i
        (max h ((m.SetMaxHeight i h).2.mesh i)) = (m.SetMaxHeight i h).2.mesh
    rw [hmesh, ← max_assoc, max_self, ← hmesh]
    exact Function.update_eq_self i _
  · show max h ((m.SetMaxHeight i h).2.mesh i) = max h (m.mesh i)
    rw [hmesh, ← max_assoc, max_self]
  · intro hle
    show Function.update m.mesh i (max h (m.mesh i)) = m.mesh
    rw [max_eq_right hle]
    exact Function.update_eq_self i m.mesh

/-- C9 witness: `SetMaxHeight` instantiated on the sample object at index
    3 (cell value 3) with height 7. -/
theorem setMaxHeight_witness :
    ((0 : ℤ) ≤ 3 ∧ (3 : ℤ) < meshAllocSize sampleMesh.maxx sampleMesh.maxy) ∧
      ((sampleMesh.SetMaxHeight 3 7).1 = max 7 (sampleMesh.mesh 3) ∧
        (sampleMesh.SetMaxHeight 3 7).2.mesh 3 = max 7 (sampleMesh.mesh 3) ∧
        sampleMesh.mesh 3 ≤ (sampleMesh.SetMaxHeight 3 7).2.mesh 3 ∧
        ((sampleMesh.SetMaxHeight 3 7).2.SetMaxHeight 3 7).2.mesh
          = (sampleMesh.SetMaxHeight 3 7).2.mesh ∧
        ((sampleMesh.SetMaxHeight 3 7).2.SetMaxHeight 3 7).1
          = (sampleMesh.SetMaxHeight 3 7).1 ∧
        (7 ≤ sampleMesh.mesh 3 → (sampleMesh.SetMaxHeight 3 7).2.mesh = sampleMesh.mesh)) :=
  ⟨⟨by decide, by decide⟩, setMaxHeight_monotone_idempotent sampleMesh 3 7 (by decide) (by decide)⟩

/- ----------------------------------------------------------------- -/
/- C6: the gaussian kernel. -/

theorem intRangeGo_length (a : ℤ) (n : ℕ) : (intRangeGo a n).length = n := by
  induction n generalizing a with
  | zero => rfl
  | succ m ih => simp [intRangeGo, ih]

theorem intRange_length (a b : ℤ) : (intRange a b).length = (b + 1 - a).toNat :=
  intRangeGo_length a _

theorem intRangeGo_map_getD (f : ℤ → ℚ) (n : ℕ) (a : ℤ) (k : ℕ) (hk : k < n) :
    ((intRangeGo a n).map f).getD k 0 = f (a + k) := by
  induction n generalizing a k with
  | zero => omega
  | succ m ih =>
    cases k with
    | zero => simp [intRangeGo]
    | succ j =>
      have hj : j < m := by omega
      show ((intRangeGo (a + 1) m).map f).getD j 0 = f (a + (j + 1 : ℕ))
      rw [ih (a + 1) j hj]
      congr 1
      push_cast
      ring

theorem intRange_map_getD (f : ℤ → ℚ) (b i : ℤ) (h0 : 0 ≤ i) (h1 : i ≤ b) :
    ((intRange 0 b).map f).getD i.toNat 0 = f i := by
  rw [intRange]
  have hk : i.toNat < (b + 1 - 0).toNat := by omega
  rw [intRangeGo_map_getD f _ 0 i.toNat hk]
  congr 1
  omega

theorem foldl_two_mul_sum (g : ℤ → ℚ) (l : List ℤ) (v : ℚ) :
    l.foldl (fun s i => s + 2 * g i) v = v + 2 * (l.map g).sum := by
  induction l generalizing v with
  | nil => simp
  | cons i t ih =>
    show t.foldl (fun s i => s + 2 * g i) (v + 2 * g i) = _
    rw [ih]
    simp [List.sum_cons]
    ring

theorem list_map_div_sum (f : ℤ → ℚ) (c : ℚ) (l : List ℤ) :
    (l.map (fun i => f i / c)).sum = (l.map f).sum / c := by
  induction l with
  | nil => simp
  | cons i t ih => simp [List.sum_cons, ih, add_div]

theorem list_map_congr_mem {f g : ℤ → ℚ} {l : List ℤ}
    (h : ∀ x ∈ l, f x = g x) : l.map f = l.map g := by
  induction l with
  | nil => rfl
  | cons i t ih =>
    simp only [List.map_cons, h i (List.mem_cons_self i t)]
    rw [ih (fun x hx => h x (List.mem_cons_of_mem i hx))]

theorem gaussKernelSum_pos (b : ℤ) (g : ℤ → ℚ) (hg : ∀ i : ℤ, 0 < g i) :
    0 < gaussKernelSum b g := by
  rw [gaussKernelSum, foldl_two_mul_sum]
  have h1 : 0 ≤ ((intRange 1 b).map g).sum := by
    apply List.sum_nonneg
    intro x hx
    rcases List.mem_map.mp hx with ⟨i, _, rfl⟩
    exact le_of_lt (hg i)
  have h2 : 0 < g 0 := hg 0
  linarith

theorem fillGaussianKernel_entry (b : ℤ) (g : ℤ → ℚ) (i : ℤ)
    (h0 : 0 ≤ i) (h1 : i ≤ b) :
    (fillGaussianKernelFunc b g).getD i.toNat 0 = g i / gaussKernelSum b g := by
  rw [fillGaussianKernelFunc, List.map_map]
  exact intRange_map_getD (fun i => g i / gaussKernelSum b g) b i h0 h1

/-- C6: for every configuration, the blur kernel holds exactly
    `blurSize + 1` weights, `blurSize = max(1, winSize/2)` with
    `winSize = ⌊smoothRadius/resolution⌋`; each stored weight `i` is the
    gaussian point sample `g i` divided by the full-window weighted sum
    (so the weights are the normalized samples of the gaussian `g`, the
    sample function at the fixed `sigma`); and the full symmetric kernel —
    tap 0 once plus taps `1..blurSize` twice each — sums exactly to 1. -/
theorem gaussian_kernel_normalized (sr res : ℚ) (g : ℤ → ℚ)
    (hg : ∀ i : ℤ, 0 < g i) :
    (((fillGaussianKernelFunc (meshBlurSize (meshWinSize sr res)) g).length : ℤ)
        = meshBlurSize (meshWinSize sr res) + 1) ∧
      (∀ i : ℤ, 0 ≤ i → i ≤ meshBlurSize (meshWinSize sr res) →
        (fillGaussianKernelFunc (meshBlurSize (meshWinSize sr res)) g).getD i.toNat 0
          = g i / gaussKernelSum (meshBlurSize (meshWinSize sr res)) g) ∧
      ((fillGaussianKernelFunc (meshBlurSize (meshWinSize sr res)) g).getD 0 0
          + 2 * ((intRange 1 (meshBlurSize (meshWinSize sr res))).map
              (fun i => (fillGaussianKernelFunc (meshBlurSize (meshWinSize sr res)) g).getD
                i.toNat 0)).sum
        = 1) := by
  have hb : (1 : ℤ) ≤ meshBlurSize (meshWinSize sr res) := le_max_left _ _
  have hS := gaussKernelSum_pos (meshBlurSize (meshWinSize sr res)) g hg
  refine ⟨?_, ?_, ?_⟩
  · rw [fillGaussianKernelFunc, List.length_map, List.length_map, intRange_length]
    omega
  · intro i h0 h1
    exact fillGaussianKernel_entry _ g i h0 h1
  · have e0 : (fillGaussianKernelFunc (meshBlurSize (meshWinSize sr res)) g).getD 0 0
        = g 0 / gaussKernelSum (meshBlurSize (meshWinSize sr res)) g := by
      have := fillGaussianKernel_entry (meshBlurSize (meshWinSize sr res)) g 0 le_rfl
        (by omega)
      simpa using this
    have e1 : ((intRange 1 (meshBlurSize (meshWinSize sr res))).map
          (fun i => (fillGaussianKernelFunc (meshBlurSize (meshWinSize sr res)) g).getD
            i.toNat 0))
        = ((intRange 1 (meshBlurSize (meshWinSize sr res))).map
          (fun i => g i / gaussKernelSum (meshBlurSize (meshWinSize sr res)) g)) := by
      apply list_map_congr_mem
      intro x hx
      rcases mem_intRange.mp hx with ⟨hx1, hx2⟩
      exact fillGaussianKernel_entry _ g x (by omega) hx2
    rw [e0, e1, list_map_div_sum]
    have hsum : gaussKernelSum (meshBlurSize (meshWinSize sr res)) g
        = g 0 + 2 * ((intRange 1 (meshBlurSize (meshWinSize sr res))).map g).sum := by
      rw [gaussKernelSum, foldl_two_mul_sum]
    have hne : gaussKernelSum (meshBlurSize (meshWinSize sr res)) g ≠ 0 := ne_of_gt hS
    field_simp
    linarith [hsum]

/-- C6 witness: the kernel theorem instantiated with
    `smoothRadius = 32`, `resolution = 8` (`winSize = 4`, `blurSize = 2`)
    and the positive sample function `g ≡ 1`. -/
theorem gaussian_kernel_normalized_witness :
    (∀ i : ℤ, (0 : ℚ) < (fun _ : ℤ => (1 : ℚ)) i) ∧
      ((((fillGaussianKernelFunc (meshBlurSize (meshWinSize 32 8)) (fun _ => 1)).length : ℤ)
          = meshBlurSize (meshWinSize 32 8) + 1) ∧
        (∀ i : ℤ, 0 ≤ i → i ≤ meshBlurSize (meshWinSize 32 8) →
          (fillGaussianKernelFunc (meshBlurSize (meshWinSize 32 8)) (fun _ => 1)).getD i.toNat 0
            = (fun _ : ℤ => (1 : ℚ)) i / gaussKernelSum (meshBlurSize (meshWinSize 32 8)) (fun _ => 1)) ∧
        ((fillGaussianKernelFunc (meshBlurSize (meshWinSize 32 8)) (fun _ => 1)).getD 0 0
            + 2 * ((intRange 1 (meshBlurSize (meshWinSize 32 8))).map
                (fun i => (fillGaussianKernelFunc (meshBlurSize (meshWinSize 32 8)) (fun _ => 1)).getD
                  i.toNat 0)).sum
          = 1)) :=
  ⟨fun _ => one_pos, gaussian_kernel_normalized 32 8 (fun _ => 1) (fun _ => one_pos)⟩

/- ----------------------------------------------------------------- -/
/- C7 / C10: the query path. -/

theorem springClamp_le {v lo hi : ℚ} (h : lo ≤ hi) : springClamp v lo hi ≤ hi := by
  rw [springClamp]
  exact max_le h (min_le_left _ _)

theorem le_springClamp (v lo hi : ℚ) : lo ≤ springClamp v lo hi := le_max_left _ _

theorem springClamp_idem (v lo hi : ℚ) (h : lo ≤ hi) :
    springClamp (springClamp v lo hi) lo hi = springClamp v lo hi := by
  rw [springClamp, springClamp]
  rcases le_total (min hi v) lo with h1 | h1
  · rw [max_eq_left h1, min_eq_right h, max_self]
  · rw [max_eq_right h1, ← min_assoc, min_self]
    exact max_eq_right h1

theorem ratTrunc_eq_floor {q : ℚ} (h : 0 ≤ q) : ratTrunc q = ⌊q⌋ := by
  rw [ratTrunc, if_pos h]

theorem interpCX_nonneg (x : ℚ) (maxx : ℤ) (res : ℚ) : 0 ≤ interpCX x maxx res :=
  le_max_left _ _

theorem interpCX_le {maxx : ℤ} (x : ℚ) (res : ℚ) (hx : 1 ≤ maxx) :
    interpCX x maxx res ≤ (maxx : ℚ) - 1 := by
  apply springClamp_le
  have : (1 : ℚ) ≤ (maxx : ℚ) := by exact_mod_cast hx
  linarith

theorem interpSX_eq_floor (x : ℚ) (maxx : ℤ) (res : ℚ) :
    interpSX x maxx res = ⌊interpCX x maxx res⌋ :=
  ratTrunc_eq_floor (interpCX_nonneg x maxx res)

theorem interpSX_nonneg (x : ℚ) (maxx : ℤ) (res : ℚ) : 0 ≤ interpSX x maxx res := by
  rw [interpSX_eq_floor]
  exact Int.floor_nonneg.mpr (interpCX_nonneg x maxx res)

theorem interpSX_le {maxx : ℤ} (x : ℚ) (res : ℚ) (hx : 1 ≤ maxx) :
    interpSX x maxx res ≤ maxx - 1 := by
  rw [interpSX_eq_floor]
  have h1 : (⌊interpCX x maxx res⌋ : ℚ) ≤ (maxx : ℚ) - 1 :=
    le_trans (Int.floor_le _) (interpCX_le x res hx)
  have h2 : ((maxx - 1 : ℤ) : ℚ) = (maxx : ℚ) - 1 := by push_cast; ring
  rw [← h2] at h1
  exact_mod_cast h1

theorem interpSXP1_nonneg (x : ℚ) {maxx : ℤ} (res : ℚ) (hx : 1 ≤ maxx) :
    0 ≤ interpSXP1 x maxx res := by
  rw [interpSXP1]
  have := interpSX_nonneg x maxx res
  omega

theorem interpSXP1_le (x : ℚ) (maxx : ℤ) (res : ℚ) :
    interpSXP1 x maxx res ≤ maxx - 1 := min_le_right _ _

/-- Every read of a corner at `(ix, iy)` with both coordinates inside
    `[0, maxx-1] × [0, maxy-1]` lands inside the allocated
    `(maxx+1)*(maxy+1)` floats. -/
theorem flatIndex_bounds {maxx maxy ix iy : ℤ} (hx : 1 ≤ maxx) (hy : 1 ≤ maxy)
    (h0x : 0 ≤ ix) (h1x : ix ≤ maxx - 1) (h0y : 0 ≤ iy) (h1y : iy ≤ maxy - 1) :
    0 ≤ ix + iy * maxx ∧ ix + iy * maxx < meshAllocSize maxx maxy := by
  have key : iy * maxx ≤ (maxy - 1) * maxx :=
    mul_le_mul_of_nonneg_right h1y (by omega)
  have pos : 0 ≤ iy * maxx := mul_nonneg h0y (by omega)
  rw [meshAllocSize]
  constructor
  · omega
  · nlinarith

/-- Model of `interpCX` is invariant under clamping the query coordinate into the
    world range covered by the grid. -/
theorem interpCX_clamp_eq (x : ℚ) (maxx : ℤ) {res : ℚ} (hres : 0 < res)
    (hx : 1 ≤ maxx) :
    interpCX (springClamp x 0 (((maxx : ℚ) - 1) * res)) maxx res
      = interpCX x maxx res := by
  have hM : (0 : ℚ) ≤ (maxx : ℚ) - 1 := by
    have : (1 : ℚ) ≤ (maxx : ℚ) := by exact_mod_cast hx
    linarith
  have hdiv : springClamp x 0 (((maxx : ℚ) - 1) * res) / res
      = springClamp (x / res) 0 ((maxx : ℚ) - 1) := by
    rw [springClamp, springClamp]
    rw [← max_div_div_right hres.le, ← min_div_div_right hres.le, zero_div,
      mul_div_cancel_right₀ _ (ne_of_gt hres)]
  rw [interpCX, hdiv]
  exact springClamp_idem _ _ _ hM

/-- C7: `GetHeight` never fails: it evaluates, on every query coordinate
    (also outside the world extent), to the bilinear interpolation of the
    four nearest mesh corners at the clamped position (the spec-side
    formula `bilinearSpec`), and an out-of-range query returns exactly
    the value of the nearest in-range query point (the coordinate clamped
    into the grid's world range). -/
theorem getHeight_clamped_bilinear (m : SmoothHeightMesh) (x z : ℚ)
    (hres : 0 < m.resolution) (hx : 1 ≤ m.maxx) (hy : 1 ≤ m.maxy) :
    m.GetHeight x z = bilinearSpec x z m.maxx m.maxy m.resolution m.mesh ∧
      m.GetHeight x z
        = m.GetHeight (springClamp x 0 (((m.maxx : ℚ) - 1) * m.resolution))
            (springClamp z 0 (((m.maxy : ℚ) - 1) * m.resolution)) := by
  constructor
  · simp only [SmoothHeightMesh.GetHeight, Interpolate, bilinearSpec, mix,
      interpSXP1, interpSX_eq_floor, interpCX]
    ring
  · have hcx := interpCX_clamp_eq x m.maxx hres hx
    have hcz := interpCX_clamp_eq z m.maxy hres hy
    have hsx : interpSX (springClamp x 0 (((m.maxx : ℚ) - 1) * m.resolution))
        m.maxx m.resolution = interpSX x m.maxx m.resolution := by
      rw [interpSX, interpSX, hcx]
    have hsz : interpSX (springClamp z 0 (((m.maxy : ℚ) - 1) * m.resolution))
        m.maxy m.resolution = interpSX z m.maxy m.resolution := by
      rw [interpSX, interpSX, hcz]
    have hsxp1 : interpSXP1 (springClamp x 0 (((m.maxx : ℚ) - 1) * m.resolution))
        m.maxx m.resolution = interpSXP1 x m.maxx m.resolution := by
      rw [interpSXP1, interpSXP1, hsx]
    have hszp1 : interpSXP1 (springClamp z 0 (((m.maxy : ℚ) - 1) * m.resolution))
        m.maxy m.resolution = interpSXP1 z m.maxy m.resolution := by
      rw [interpSXP1, interpSXP1, hsz]
    simp only [SmoothHeightMesh.GetHeight, Interpolate]
    rw [hcx, hcz, hsx, hsz, hsxp1, hszp1]

/-- C7 witness: the query theorem instantiated on the sample object at
    the out-of-range coordinate `(1000, -50)`. -/
theorem getHeight_clamped_bilinear_witness :
    ((0 : ℚ) < sampleMesh.resolution ∧ (1 : ℤ) ≤ sampleMesh.maxx ∧
        (1 : ℤ) ≤ sampleMesh.maxy) ∧
      (sampleMesh.GetHeight 1000 (-50)
          = bilinearSpec 1000 (-50) sampleMesh.maxx sampleMesh.maxy
              sampleMesh.resolution sampleMesh.mesh ∧
        sampleMesh.GetHeight 1000 (-50)
          = sampleMesh.GetHeight
              (springClamp 1000 0 (((sampleMesh.maxx : ℚ) - 1) * sampleMesh.resolution))
              (springClamp (-50) 0 (((sampleMesh.maxy : ℚ) - 1) * sampleMesh.resolution))) :=
  ⟨⟨by decide, by decide, by decide⟩,
    getHeight_clamped_bilinear sampleMesh 1000 (-50) (by decide) (by decide) (by decide)⟩

/-- C10: on a built mesh (`maxx ≥ 1`, `maxy ≥ 1`), for every query
    coordinate the clamped cell coordinates used by `Interpolate` lie in
    `[0, maxx-1]` resp. `[0, maxy-1]`, each of the four corner reads is
    inside the allocated `(maxx+1)*(maxy+1)` floats, and both `GetHeight`
    and `GetHeightAboveWater` are total (`GetHeightAboveWater` is the
    water-floored `GetHeight`). -/
theorem query_reads_in_bounds (m : SmoothHeightMesh) (x z : ℚ)
    (hx : 1 ≤ m.maxx) (hy : 1 ≤ m.maxy) :
    (0 ≤ interpSX x m.maxx m.resolution ∧
        interpSX x m.maxx m.resolution ≤ m.maxx - 1) ∧
      (0 ≤ interpSXP1 x m.maxx m.resolution ∧
        interpSXP1 x m.maxx m.resolution ≤ m.maxx - 1) ∧
      (0 ≤ interpSX z m.maxy m.resolution ∧
        interpSX z m.maxy m.resolution ≤ m.maxy - 1) ∧
      (0 ≤ interpSXP1 z m.maxy m.resolution ∧
        interpSXP1 z m.maxy m.resolution ≤ m.maxy - 1) ∧
      (0 ≤ interpSX x m.maxx m.resolution + interpSX z m.maxy m.resolution * m.maxx ∧
        interpSX x m.maxx m.resolution + interpSX z m.maxy m.resolution * m.maxx
          < meshAllocSize m.maxx m.maxy) ∧
      (0 ≤ interpSXP1 x m.maxx m.resolution + interpSX z m.maxy m.resolution * m.maxx ∧
        interpSXP1 x m.maxx m.resolution + interpSX z m.maxy m.resolution * m.maxx
          < meshAllocSize m.maxx m.maxy) ∧
      (0 ≤ interpSX x m.maxx m.resolution + interpSXP1 z m.maxy m.resolution * m.maxx ∧
        interpSX x m.maxx m.resolution + interpSXP1 z m.maxy m.resolution * m.maxx
          < meshAllocSize m.maxx m.maxy) ∧
      (0 ≤ interpSXP1 x m.maxx m.resolution + interpSXP1 z m.maxy m.resolution * m.maxx ∧
        interpSXP1 x m.maxx m.resolution + interpSXP1 z m.maxy m.resolution * m.maxx
          < meshAllocSize m.maxx m.maxy) ∧
      m.GetHeightAboveWater x z = max 0 (m.GetHeight x z) := by
  have b1 := interpSX_nonneg x m.maxx m.resolution
  have b2 := interpSX_le x m.resolution hx
  have b3 := interpSXP1_nonneg x m.resolution hx
  have b4 := interpSXP1_le x m.maxx m.resolution
  have b5 := interpSX_nonneg z m.maxy m.resolution
  have b6 := interpSX_le z m.resolution hy
  have b7 := interpSXP1_nonneg z m.resolution hy
  have b8 := interpSXP1_le z m.maxy m.resolution
  exact ⟨⟨b1, b2⟩, ⟨b3, b4⟩, ⟨b5, b6⟩, ⟨b7, b8⟩,
    flatIndex_bounds hx hy b1 b2 b5 b6,
    flatIndex_bounds hx hy b3 b4 b5 b6,
    flatIndex_bounds hx hy b1 b2 b7 b8,
    flatIndex_bounds hx hy b3 b4 b7 b8, rfl⟩

/-- C10 witness: the bounds theorem instantiated on the sample object at
    the far out-of-range coordinate `(-1000, 99999)`. -/
theorem query_reads_in_bounds_witness :
    ((1 : ℤ) ≤ sampleMesh.maxx ∧ (1 : ℤ) ≤ sampleMesh.maxy) ∧
      ((0 ≤ interpSX (-1000) sampleMesh.maxx sampleMesh.resolution ∧
          interpSX (-1000) sampleMesh.maxx sampleMesh.resolution ≤ sampleMesh.maxx - 1) ∧
        (0 ≤ interpSXP1 (-1000) sampleMesh.maxx sampleMesh.resolution ∧
          interpSXP1 (-1000) sampleMesh.maxx sampleMesh.resolution ≤ sampleMesh.maxx - 1) ∧
        (0 ≤ interpSX 99999 sampleMesh.maxy sampleMesh.resolution ∧
          interpSX 99999 sampleMesh.maxy sampleMesh.resolution ≤ sampleMesh.maxy - 1) ∧
        (0 ≤ interpSXP1 99999 sampleMesh.maxy sampleMesh.resolution ∧
          interpSXP1 99999 sampleMesh.maxy sampleMesh.resolution ≤ sampleMesh.maxy - 1) ∧
        (0 ≤ interpSX (-1000) sampleMesh.maxx sampleMesh.resolution
              + interpSX 99999 sampleMesh.maxy sampleMesh.resolution * sampleMesh.maxx ∧
          interpSX (-1000) sampleMesh.maxx sampleMesh.resolution
              + interpSX 99999 sampleMesh.maxy sampleMesh.resolution * sampleMesh.maxx
            < meshAllocSize sampleMesh.maxx sampleMesh.maxy) ∧
        (0 ≤ interpSXP1 (-1000) sampleMesh.maxx sampleMesh.resolution
              + interpSX 99999 sampleMesh.maxy sampleMesh.resolution * sampleMesh.maxx ∧
          interpSXP1 (-1000) sampleMesh.maxx sampleMesh.resolution
              + interpSX 99999 sampleMesh.maxy sampleMesh.resolution * sampleMesh.maxx
            < meshAllocSize sampleMesh.maxx sampleMesh.maxy) ∧
        (0 ≤ interpSX (-1000) sampleMesh.maxx sampleMesh.resolution
              + interpSXP1 99999 sampleMesh.maxy sampleMesh.resolution * sampleMesh.maxx ∧
          interpSX (-1000) sampleMesh.maxx sampleMesh.resolution
              + interpSXP1 99999 sampleMesh.maxy sampleMesh.resolution * sampleMesh.maxx
            < meshAllocSize sampleMesh.maxx sampleMesh.maxy) ∧
        (0 ≤ interpSXP1 (-1000) sampleMesh.maxx sampleMesh.resolution
              + interpSXP1 99999 sampleMesh.maxy sampleMesh.resolution * sampleMesh.maxx ∧
          interpSXP1 (-1000) sampleMesh.maxx sampleMesh.resolution
              + interpSXP1 99999 sampleMesh.maxy sampleMesh.resolution * sampleMesh.maxx
            < meshAllocSize sampleMesh.maxx sampleMesh.maxy) ∧
        sampleMesh.GetHeightAboveWater (-1000) 99999
          = max 0 (sampleMesh.GetHeight (-1000) 99999)) :=
  ⟨⟨by decide, by decide⟩,
    query_reads_in_bounds sampleMesh (-1000) 99999 (by decide) (by decide)⟩

/- ----------------------------------------------------------------- -/
/- Generic lemmas on folds of function updates (the shape of every
   mesh-writing loop) and on the cell index arithmetic. -/

theorem intRange_split (a c b : ℤ) (h1 : a ≤ c) (h2 : c ≤ b + 1) :
    intRange a b = intRange a (c - 1) ++ intRange c b := by
  have key : ∀ n : ℕ, ∀ a c : ℤ, a ≤ c → c ≤ b + 1 → (c - a).toNat = n →
      intRange a b = intRange a (c - 1) ++ intRange c b := by
    intro n
    induction n with
    | zero =>
      intro a c h1 h2 hn
      have : a = c := by omega
      subst this
      rw [intRange_eq_nil (by omega : a - 1 < a), List.nil_append]
    | succ m ih =>
      intro a c h1 h2 hn
      have hac : a < c := by omega
      have hab : a ≤ b := by omega
      rw [intRange_cons hab, ih (a + 1) c (by omega) h2 (by omega),
        intRange_cons (by omega : a ≤ c - 1)]
      rfl
  exact key (c - a).toNat a c h1 h2 rfl

theorem foldl_update_of_ne (keyf : ℤ → ℤ) (valf : ℤ → ℚ) (l : List ℤ)
    (s : ℤ → ℚ) (j : ℤ) (h : ∀ i ∈ l, keyf i ≠ j) :
    (l.foldl (fun s i => Function.update s (keyf i) (valf i)) s) j = s j := by
  induction l generalizing s with
  | nil => rfl
  | cons a t ih =>
    show (t.foldl _ (Function.update s (keyf a) (valf a))) j = s j
    rw [ih _ (fun i hi => h i (List.mem_cons_of_mem a hi)),
      Function.update_noteq (Ne.symm (h a (List.mem_cons_self a t)))]

theorem foldl_update_const (keyf : ℤ → ℤ) (valf : ℤ → ℚ) (l : List ℤ)
    (s : ℤ → ℚ) (j : ℤ) (v : ℚ) (h : ∀ i ∈ l, keyf i = j → valf i = v)
    (hs : s j = v) :
    (l.foldl (fun s i => Function.update s (keyf i) (valf i)) s) j = v := by
  induction l generalizing s with
  | nil => exact hs
  | cons a t ih =>
    show (t.foldl _ (Function.update s (keyf a) (valf a))) j = v
    apply ih _ (fun i hi => h i (List.mem_cons_of_mem a hi))
    rcases eq_or_ne (keyf a) j with hj | hj
    · rw [← hj, Function.update_same]
      exact h a (List.mem_cons_self a t) hj
    · rw [Function.update_noteq (Ne.symm hj)]
      exact hs

theorem foldl_update_mem (keyf : ℤ → ℤ) (valf : ℤ → ℚ) (l : List ℤ)
    (s : ℤ → ℚ) (i : ℤ) (hi : i ∈ l)
    (huniq : ∀ a ∈ l, keyf a = keyf i → valf a = valf i) :
    (l.foldl (fun s i => Function.update s (keyf i) (valf i)) s) (keyf i) = valf i := by
  induction l generalizing s with
  | nil => cases hi
  | cons a t ih =>
    show (t.foldl _ (Function.update s (keyf a) (valf a))) (keyf i) = valf i
    by_cases hit : i ∈ t
    · exact ih _ hit (fun b hb => huniq b (List.mem_cons_of_mem a hb))
    · have hia : i = a := by
        rcases List.mem_cons.mp hi with h | h
        · exact h
        · exact absurd h hit
      subst hia
      apply foldl_update_const
      · intro b hb hkey
        exact huniq b (List.mem_cons_of_mem i hb) hkey
      · rw [Function.update_same]

/-- Distinct grid cells have distinct flat indices (row stride `maxx`),
    provided the column coordinates lie in `[0, maxx-1]`. -/
theorem cellIndex_inj {maxx x1 y1 x2 y2 : ℤ} (hx1 : 0 ≤ x1) (hx1' : x1 ≤ maxx - 1)
    (hx2 : 0 ≤ x2) (hx2' : x2 ≤ maxx - 1)
    (h : x1 + y1 * maxx = x2 + y2 * maxx) : x1 = x2 ∧ y1 = y2 := by
  have hy : y1 = y2 := by
    rcases lt_trichotomy y1 y2 with hlt | heq | hgt
    · exfalso
      have h1 : (1 : ℤ) ≤ y2 - y1 := by omega
      have hd : x1 - x2 = (y2 - y1) * maxx := by linear_combination h
      have h2 : maxx ≤ (y2 - y1) * maxx :=
        le_mul_of_one_le_left (by omega) h1
      omega
    · exact heq
    · exfalso
      have h1 : (1 : ℤ) ≤ y1 - y2 := by omega
      have hd : x2 - x1 = (y1 - y2) * maxx := by linear_combination - h
      have h2 : maxx ≤ (y1 - y2) * maxx :=
        le_mul_of_one_le_left (by omega) h1
      omega
  subst hy
  refine ⟨?_, rfl⟩
  omega

/-- A fold whose every step preserves the entry at `j` preserves it. -/
theorem foldl_preserves (F : (ℤ → ℚ) → ℤ → (ℤ → ℚ)) (l : List ℤ) (j : ℤ)
    (h : ∀ s, ∀ y ∈ l, (F s y) j = s j) (s : ℤ → ℚ) : (l.foldl F s) j = s j := by
  induction l generalizing s with
  | nil => rfl
  | cons a t ih =>
    show (t.foldl F (F s a)) j = s j
    rw [ih (fun s y hy => h s y (List.mem_cons_of_mem a hy)) (F s a),
      h s a (List.mem_cons_self a t)]

theorem BlurHorizontal_eq_updates (maxx maxy blurSize : ℤ) (res : ℚ)
    (kernel : List ℚ) (minH maxH : ℚ) (G : ℚ → ℚ → ℚ) (mesh smoothed : ℤ → ℚ) :
    BlurHorizontal maxx maxy blurSize res kernel minH maxH G mesh smoothed
      = (intRange 0 (maxy - 1)).foldl (fun sm y =>
          (intRange 0 (maxx - 1)).foldl (fun sm x =>
            Function.update sm (x + y * maxx)
              (blurHVal maxx blurSize res kernel minH maxH G mesh x y)) sm) smoothed := by
  rw [BlurHorizontal]
  congr 1
  funext sm y
  congr 1
  funext sm2 x
  simp only [blurHVal, Function.update_idem, Function.update_same]

theorem BlurVertical_eq_updates (maxx maxy blurSize : ℤ) (res : ℚ)
    (kernel : List ℚ) (minH maxH : ℚ) (G : ℚ → ℚ → ℚ) (mesh smoothed : ℤ → ℚ) :
    BlurVertical maxx maxy blurSize res kernel minH maxH G mesh smoothed
      = (intRange 0 (maxx - 1)).foldl (fun sm x =>
          (intRange 0 (maxy - 1)).foldl (fun sm y =>
            Function.update sm (x + y * maxx)
              (blurVVal maxx maxy blurSize res kernel minH maxH G mesh x y)) sm) smoothed := by
  rw [BlurVertical]
  congr 1
  funext sm x
  congr 1
  funext sm2 y
  simp only [blurVVal, Function.update_idem, Function.update_same]

/-- Model of `BlurHorizontal` leaves every flat index that is not a written cell
    index (`x + y*maxx`, `0 ≤ x < maxx`, `0 ≤ y < maxy`) unchanged. -/
theorem blurH_not_written (maxx maxy blurSize : ℤ) (res : ℚ) (kernel : List ℚ)
    (minH maxH : ℚ) (G : ℚ → ℚ → ℚ) (mesh smoothed : ℤ → ℚ) (j : ℤ)
    (h : ∀ x y : ℤ, 0 ≤ x → x ≤ maxx - 1 → 0 ≤ y → y ≤ maxy - 1 →
      x + y * maxx ≠ j) :
    BlurHorizontal maxx maxy blurSize res kernel minH maxH G mesh smoothed j
      = smoothed j := by
  rw [BlurHorizontal_eq_updates]
  apply foldl_preserves
  intro s y hy
  rcases mem_intRange.mp hy with ⟨hy0, hy1⟩
  apply foldl_update_of_ne
  intro x hx
  rcases mem_intRange.mp hx with ⟨hx0, hx1⟩
  exact h x y hx0 hx1 hy0 hy1

/-- Model of `BlurVertical` leaves every flat index that is not a written cell
    index unchanged. -/
theorem blurV_not_written (maxx maxy blurSize : ℤ) (res : ℚ) (kernel : List ℚ)
    (minH maxH : ℚ) (G : ℚ → ℚ → ℚ) (mesh smoothed : ℤ → ℚ) (j : ℤ)
    (h : ∀ x y : ℤ, 0 ≤ x → x ≤ maxx - 1 → 0 ≤ y → y ≤ maxy - 1 →
      x + y * maxx ≠ j) :
    BlurVertical maxx maxy blurSize res kernel minH maxH G mesh smoothed j
      = smoothed j := by
  rw [BlurVertical_eq_updates]
  apply foldl_preserves
  intro s x hx
  rcases mem_intRange.mp hx with ⟨hx0, hx1⟩
  apply foldl_update_of_ne
  intro y hy
  rcases mem_intRange.mp hy with ⟨hy0, hy1⟩
  exact h x y hx0 hx1 hy0 hy1

/-- The value `BlurHorizontal` stores at every written cell. -/
theorem blurH_written (maxx maxy blurSize : ℤ) (res : ℚ) (kernel : List ℚ)
    (minH maxH : ℚ) (G : ℚ → ℚ → ℚ) (mesh smoothed : ℤ → ℚ) (x y : ℤ)
    (hx0 : 0 ≤ x) (hx1 : x ≤ maxx - 1) (hy0 : 0 ≤ y) (hy1 : y ≤ maxy - 1) :
    BlurHorizontal maxx maxy blurSize res kernel minH maxH G mesh smoothed
        (x + y * maxx)
      = blurHVal maxx blurSize res kernel minH maxH G mesh x y := by
  rw [BlurHorizontal_eq_updates]
  rw [intRange_split 0 (y + 1) (maxy - 1) (by omega) (by omega),
    List.foldl_append]
  have hrow : ∀ sm : ℤ → ℚ,
      ((intRange 0 (maxx - 1)).foldl (fun sm x' =>
        Function.update sm (x' + y * maxx)
          (blurHVal maxx blurSize res kernel minH maxH G mesh x' y)) sm)
        (x + y * maxx)
      = blurHVal maxx blurSize res kernel minH maxH G mesh x y := by
    intro sm
    exact foldl_update_mem (fun x' => x' + y * maxx)
      (fun x' => blurHVal maxx blurSize res kernel minH maxH G mesh x' y)
      _ sm x (mem_intRange.mpr ⟨hx0, hx1⟩)
      (fun a ha hkey => by
        rcases mem_intRange.mp ha with ⟨ha0, ha1⟩
        rcases cellIndex_inj ha0 ha1 hx0 hx1 hkey with ⟨rfl, _⟩
        rfl)
  have hlater : ∀ s : ℤ → ℚ,
      ((intRange (y + 1) (maxy - 1)).foldl (fun sm y' =>
        (intRange 0 (maxx - 1)).foldl (fun sm x' =>
          Function.update sm (x' + y' * maxx)
            (blurHVal maxx blurSize res kernel minH maxH G mesh x' y')) sm) s)
        (x + y * maxx)
      = s (x + y * maxx) := by
    intro s
    apply foldl_preserves
    intro s' y' hy'
    rcases mem_intRange.mp hy' with ⟨hy'0, hy'1⟩
    apply foldl_update_of_ne
    intro x' hx'
    rcases mem_intRange.mp hx' with ⟨hx'0, hx'1⟩
    intro hkey
    rcases cellIndex_inj hx'0 hx'1 hx0 hx1 hkey with ⟨_, hyy⟩
    omega
  rw [hlater]
  rw [intRange_snoc (by omega : (0 : ℤ) ≤ y + 1 - 1)]
  have hyy : y + 1 - 1 = y := by omega
  rw [hyy, List.foldl_append]
  exact hrow _

/-- The value `BlurVertical` stores at every written cell. -/
theorem blurV_written (maxx maxy blurSize : ℤ) (res : ℚ) (kernel : List ℚ)
    (minH maxH : ℚ) (G : ℚ → ℚ → ℚ) (mesh smoothed : ℤ → ℚ) (x y : ℤ)
    (hx0 : 0 ≤ x) (hx1 : x ≤ maxx - 1) (hy0 : 0 ≤ y) (hy1 : y ≤ maxy - 1) :
    BlurVertical maxx maxy blurSize res kernel minH maxH G mesh smoothed
        (x + y * maxx)
      = blurVVal maxx maxy blurSize res kernel minH maxH G mesh x y := by
  rw [BlurVertical_eq_updates]
  rw [intRange_split 0 (x + 1) (maxx - 1) (by omega) (by omega),
    List.foldl_append]
  have hcol : ∀ sm : ℤ → ℚ,
      ((intRange 0 (maxy - 1)).foldl (fun sm y' =>
        Function.update sm (x + y' * maxx)
          (blurVVal maxx maxy blurSize res kernel minH maxH G mesh x y')) sm)
        (x + y * maxx)
      = blurVVal maxx maxy blurSize res kernel minH maxH G mesh x y := by
    intro sm
    exact foldl_update_mem (fun y' => x + y' * maxx)
      (fun y' => blurVVal maxx maxy blurSize res kernel minH maxH G mesh x y')
      _ sm y (mem_intRange.mpr ⟨hy0, hy1⟩)
      (fun a ha hkey => by
        rcases cellIndex_inj hx0 hx1 hx0 hx1 hkey with ⟨_, rfl⟩
        rfl)
  have hlater : ∀ s : ℤ → ℚ,
      ((intRange (x + 1) (maxx - 1)).foldl (fun sm x' =>
        (intRange 0 (maxy - 1)).foldl (fun sm y' =>
          Function.update sm (x' + y' * maxx)
            (blurVVal maxx maxy blurSize res kernel minH maxH G mesh x' y')) sm) s)
        (x + y * maxx)
      = s (x + y * maxx) := by
    intro s
    apply foldl_preserves
    intro s' x' hx'
    rcases mem_intRange.mp hx' with ⟨hx'0, hx'1⟩
    apply foldl_update_of_ne
    intro y' hy'
    intro hkey
    have hx'00 : (0 : ℤ) ≤ x' := by omega
    rcases cellIndex_inj hx'00 hx'1 hx0 hx1 hkey with ⟨hxx, _⟩
    omega
  rw [hlater]
  rw [intRange_snoc (by omega : (0 : ℤ) ≤ x + 1 - 1)]
  have hxx : x + 1 - 1 = x := by omega
  rw [hxx, List.foldl_append]
  exact hcol _

/- ----------------------------------------------------------------- -/
/- C2: the per-convolution contract of the blur passes. -/

theorem foldl_add_eq_sum (f : ℤ → ℚ) (l : List ℤ) (v : ℚ) :
    l.foldl (fun a i => a + f i) v = v + (l.map f).sum := by
  induction l generalizing v with
  | nil => simp
  | cons i t ih =>
    show t.foldl (fun a i => a + f i) (v + f i) = _
    rw [ih]
    simp [List.sum_cons]
    ring

theorem intRange_map_sum_eq_Icc (f : ℤ → ℚ) (a b : ℤ) :
    ((intRange a b).map f).sum = ∑ i ∈ Finset.Icc a b, f i := by
  have key : ∀ n : ℕ, ∀ a : ℤ, (b + 1 - a).toNat = n →
      ((intRange a b).map f).sum = ∑ i ∈ Finset.Icc a b, f i := by
    intro n
    induction n with
    | zero =>
      intro a hn
      rw [intRange_eq_nil (by omega), Finset.Icc_eq_empty (by omega)]
      simp
    | succ m ih =>
      intro a hn
      have hab : a ≤ b := by omega
      have hicc : Finset.Icc a b = insert a (Finset.Icc (a + 1) b) := by
        ext i
        simp only [Finset.mem_Icc, Finset.mem_insert]
        omega
      have hnotmem : a ∉ Finset.Icc (a + 1) b := by
        simp only [Finset.mem_Icc]
        omega
      rw [intRange_cons hab, List.map_cons, List.sum_cons, hicc,
        Finset.sum_insert hnotmem, ih (a + 1) (by omega)]
  exact key (b + 1 - a).toNat a rfl

/-- The horizontal convolution sum written as a `Finset` sum. -/
theorem blurAvgRow_eq_sum (maxx blurSize : ℤ) (kernel : List ℚ)
    (mesh : ℤ → ℚ) (x y : ℤ) :
    blurAvgRow maxx blurSize kernel mesh x y
      = ∑ x1 ∈ Finset.Icc (x - blurSize) (x + blurSize),
          kernel.getD (x1 - x).natAbs 0 * mesh (max 0 (min (maxx - 1) x1) + y * maxx) := by
  rw [blurAvgRow, foldl_add_eq_sum, zero_add, intRange_map_sum_eq_Icc]

/-- The vertical convolution sum written as a `Finset` sum. -/
theorem blurAvgCol_eq_sum (maxx maxy blurSize : ℤ) (kernel : List ℚ)
    (mesh : ℤ → ℚ) (x y : ℤ) :
    blurAvgCol maxx maxy blurSize kernel mesh x y
      = ∑ y1 ∈ Finset.Icc (y - blurSize) (y + blurSize),
          kernel.getD (y1 - y).natAbs 0 * mesh (x + max 0 (min (maxy - 1) y1) * maxx) := by
  rw [blurAvgCol, foldl_add_eq_sum, zero_add, intRange_map_sum_eq_Icc]

theorem stdClamp_ge_of_le {v lo hi c : ℚ} (hvc : c ≤ v) (hc : c ≤ hi) :
    c ≤ stdClamp v lo hi := by
  rw [stdClamp]
  split
  · linarith
  · split
    · exact hc
    · exact hvc

theorem stdClamp_mem {v lo hi : ℚ} (h : lo ≤ hi) :
    lo ≤ stdClamp v lo hi ∧ stdClamp v lo hi ≤ hi := by
  rw [stdClamp]
  split
  · exact ⟨le_refl lo, h⟩
  · split
    · exact ⟨h, le_refl hi⟩
    · constructor <;> linarith [not_lt.mp (by assumption : ¬v < lo)]

/-- C2 (amended): for every cell a 1D blur convolution writes
    (`0 ≤ x < maxx`, `0 ≤ y < maxy` — row `maxy` and column `maxx` of the
    allocated grid are not written), the stored value equals
    `max(blurred average, true terrain height)` clamped to
    `[minH, maxH]`; consequently, whenever the true height lies within
    the global bounds, the stored value is `≥` the true height and lies
    within `[minH, maxH]`.  Both directions, for an arbitrary source
    buffer, hence for every pass. -/
theorem blur_stores_clamped_max (maxx maxy blurSize : ℤ) (res : ℚ)
    (kernel : List ℚ) (minH maxH : ℚ) (G : ℚ → ℚ → ℚ) (mesh smoothed : ℤ → ℚ)
    (x y : ℤ) (hx0 : 0 ≤ x) (hx1 : x < maxx) (hy0 : 0 ≤ y) (hy1 : y < maxy)
    (hmin : minH ≤ G (x * res) (y * res)) (hmax : G (x * res) (y * res) ≤ maxH) :
    (BlurHorizontal maxx maxy blurSize res kernel minH maxH G mesh smoothed
          (x + y * maxx)
        = stdClamp (max (G (x * res) (y * res))
            (∑ x1 ∈ Finset.Icc (x - blurSize) (x + blurSize),
              kernel.getD (x1 - x).natAbs 0 *
                mesh (max 0 (min (maxx - 1) x1) + y * maxx))) minH maxH ∧
      G (x * res) (y * res)
        ≤ BlurHorizontal maxx maxy blurSize res kernel minH maxH G mesh smoothed
            (x + y * maxx) ∧
      minH ≤ BlurHorizontal maxx maxy blurSize res kernel minH maxH G mesh smoothed
          (x + y * maxx) ∧
      BlurHorizontal maxx maxy blurSize res kernel minH maxH G mesh smoothed
          (x + y * maxx) ≤ maxH) ∧
    (BlurVertical maxx maxy blurSize res kernel minH maxH G mesh smoothed
          (x + y * maxx)
        = stdClamp (max (G (x * res) (y * res))
            (∑ y1 ∈ Finset.Icc (y - blurSize) (y + blurSize),
              kernel.getD (y1 - y).natAbs 0 *
                mesh (x + max 0 (min (maxy - 1) y1) * maxx))) minH maxH ∧
      G (x * res) (y * res)
        ≤ BlurVertical maxx maxy blurSize res kernel minH maxH G mesh smoothed
            (x + y * maxx) ∧
      minH ≤ BlurVertical maxx maxy blurSize res kernel minH maxH G mesh smoothed
          (x + y * maxx) ∧
      BlurVertical maxx maxy blurSize res kernel minH maxH G mesh smoothed
          (x + y * maxx) ≤ maxH) := by
  have hH := blurH_written maxx maxy blurSize res kernel minH maxH G mesh smoothed
    x y hx0 (by omega) hy0 (by omega)
  have hV := blurV_written maxx maxy blurSize res kernel minH maxH G mesh smoothed
    x y hx0 (by omega) hy0 (by omega)
  have hmm : minH ≤ maxH := le_trans hmin hmax
  constructor
  · refine ⟨?_, ?_, ?_, ?_⟩
    · rw [hH, blurHVal, blurAvgRow_eq_sum]
    · rw [hH, blurHVal]
      exact stdClamp_ge_of_le (le_max_left _ _) hmax
    · rw [hH, blurHVal]
      exact (stdClamp_mem hmm).1
    · rw [hH, blurHVal]
      exact (stdClamp_mem hmm).2
  · refine ⟨?_, ?_, ?_, ?_⟩
    · rw [hV, blurVVal, blurAvgCol_eq_sum]
    · rw [hV, blurVVal]
      exact stdClamp_ge_of_le (le_max_left _ _) hmax
    · rw [hV, blurVVal]
      exact (stdClamp_mem hmm).1
    · rw [hV, blurVVal]
      exact (stdClamp_mem hmm).2

/-- C2 counterexample (the claim quantified over every cell of the
    `(maxx+1) × (maxy+1)` grid is false): with `maxx = maxy = 1`, a flat
    terrain of height 5, `minHeight = maxHeight = 5` and the pre-blur
    mesh at 5 everywhere, the cell `(0, maxy)` of the blur output buffer
    (flat index `0 + 1·1`) still holds its initial 0 — the convolution
    never writes row `maxy` — so its value is strictly below the true
    terrain height there, contradicting the claimed invariant. -/
theorem blur_row_maxy_stale_counterexample :
    BlurHorizontal 1 1 1 1 [1, 0] 5 5 (fun _ _ => 5) (fun _ => 5) (fun _ => 0)
        (0 + 1 * 1)
      < (fun _ _ => (5 : ℚ)) (0 * 1) (1 * 1) := by
  decide

/-- C2 witness: the per-convolution contract instantiated at cell
    `(1, 1)` of a 2×2-cell grid with kernel `[2/3, 1/6]`, flat source
    mesh 5, terrain height 3 and bounds `[0, 10]`. -/
theorem blur_stores_clamped_max_witness :
    ((0 : ℤ) ≤ 1 ∧ (1 : ℤ) < 2 ∧
        (0 : ℚ) ≤ (fun _ _ => (3 : ℚ)) (1 * 1) (1 * 1) ∧
        (fun _ _ => (3 : ℚ)) (1 * 1) (1 * 1) ≤ 10) ∧
      ((BlurHorizontal 2 2 1 1 [2/3, 1/6] 0 10 (fun _ _ => 3) (fun _ => 5)
            (fun _ => 0) (1 + 1 * 2)
          = stdClamp (max ((fun _ _ => (3 : ℚ)) (1 * 1) (1 * 1))
              (∑ x1 ∈ Finset.Icc ((1 : ℤ) - 1) (1 + 1),
                ([(2 : ℚ)/3, 1/6]).getD (x1 - 1).natAbs 0 *
                  (fun _ => (5 : ℚ)) (max 0 (min (2 - 1) x1) + 1 * 2))) 0 10 ∧
        (fun _ _ => (3 : ℚ)) (1 * 1) (1 * 1)
          ≤ BlurHorizontal 2 2 1 1 [2/3, 1/6] 0 10 (fun _ _ => 3) (fun _ => 5)
              (fun _ => 0) (1 + 1 * 2) ∧
        (0 : ℚ) ≤ BlurHorizontal 2 2 1 1 [2/3, 1/6] 0 10 (fun _ _ => 3) (fun _ => 5)
            (fun _ => 0) (1 + 1 * 2) ∧
        BlurHorizontal 2 2 1 1 [2/3, 1/6] 0 10 (fun _ _ => 3) (fun _ => 5)
            (fun _ => 0) (1 + 1 * 2) ≤ 10) ∧
      (BlurVertical 2 2 1 1 [2/3, 1/6] 0 10 (fun _ _ => 3) (fun _ => 5)
            (fun _ => 0) (1 + 1 * 2)
          = stdClamp (max ((fun _ _ => (3 : ℚ)) (1 * 1) (1 * 1))
              (∑ y1 ∈ Finset.Icc ((1 : ℤ) - 1) (1 + 1),
                ([(2 : ℚ)/3, 1/6]).getD (y1 - 1).natAbs 0 *
                  (fun _ => (5 : ℚ)) (1 + max 0 (min (2 - 1) y1) * 2))) 0 10 ∧
        (fun _ _ => (3 : ℚ)) (1 * 1) (1 * 1)
          ≤ BlurVertical 2 2 1 1 [2/3, 1/6] 0 10 (fun _ _ => 3) (fun _ => 5)
              (fun _ => 0) (1 + 1 * 2) ∧
        (0 : ℚ) ≤ BlurVertical 2 2 1 1 [2/3, 1/6] 0 10 (fun _ _ => 3) (fun _ => 5)
            (fun _ => 0) (1 + 1 * 2) ∧
        BlurVertical 2 2 1 1 [2/3, 1/6] 0 10 (fun _ _ => 3) (fun _ => 5)
            (fun _ => 0) (1 + 1 * 2) ≤ 10)) :=
  ⟨⟨by decide, by decide, by decide, by decide⟩,
    blur_stores_clamped_max 2 2 1 1 [2/3, 1/6] 0 10 (fun _ _ => 3) (fun _ => 5)
      (fun _ => 0) 1 1 (by decide) (by decide) (by decide) (by decide)
      (by decide) (by decide)⟩

/- ----------------------------------------------------------------- -/
/- Per-column decomposition of the sliding-window pass. -/

theorem colUpdate_colPair_self (s : SWState) (x : ℤ) :
    colUpdate s x (colPair s x) = s := by
  rw [colUpdate, colPair]
  simp [Function.update_eq_self]

theorem colPair_colUpdate_same (s : SWState) (x : ℤ) (p : ℚ × ℤ) :
    colPair (colUpdate s x p) x = p := by
  rw [colUpdate, colPair]
  simp

theorem colUpdate_colUpdate (s : SWState) (x : ℤ) (p q : ℚ × ℤ) :
    colUpdate (colUpdate s x p) x q = colUpdate s x q := by
  rw [colUpdate, colUpdate, colUpdate]
  simp [Function.update_idem]

theorem colPair_colUpdate_ne (s : SWState) {x z : ℤ} (h : z ≠ x) (p : ℚ × ℤ) :
    colPair (colUpdate s x p) z = colPair s z := by
  rw [colUpdate, colPair, colPair]
  simp [Function.update_noteq h]

/-- A fold whose body only reads and writes the fixed column `x` is the
    column-pair fold. -/
theorem foldl_fixedcol (x : ℤ) (pstep : ℚ × ℤ → ℤ → ℚ × ℤ) (l : List ℤ)
    (s : SWState) :
    l.foldl (fun s y1 => colUpdate s x (pstep (colPair s x) y1)) s
      = colUpdate s x (l.foldl pstep (colPair s x)) := by
  induction l generalizing s with
  | nil => rw [List.foldl_nil, List.foldl_nil, colUpdate_colPair_self]
  | cons y1 t ih =>
    rw [List.foldl_cons, List.foldl_cons, ih, colPair_colUpdate_same,
      colUpdate_colUpdate]

theorem foldl_colwise_ne (body : SWState → ℤ → SWState)
    (colf : ℤ → ℚ × ℤ → ℚ × ℤ)
    (hbody : ∀ s x, body s x = colUpdate s x (colf x (colPair s x)))
    (l : List ℤ) {x : ℤ} (hx : x ∉ l) (s : SWState) :
    colPair (l.foldl body s) x = colPair s x := by
  induction l generalizing s with
  | nil => rfl
  | cons a t ih =>
    rw [List.foldl_cons]
    have hxa : x ≠ a := fun h => hx (h ▸ List.mem_cons_self a t)
    rw [ih (fun h => hx (List.mem_cons_of_mem a h)), hbody,
      colPair_colUpdate_ne s hxa]

theorem foldl_colwise_mem (body : SWState → ℤ → SWState)
    (colf : ℤ → ℚ × ℤ → ℚ × ℤ)
    (hbody : ∀ s x, body s x = colUpdate s x (colf x (colPair s x)))
    (l : List ℤ) (hnd : l.Nodup) {x : ℤ} (hx : x ∈ l) (s : SWState) :
    colPair (l.foldl body s) x = colf x (colPair s x) := by
  induction l generalizing s with
  | nil => cases hx
  | cons a t ih =>
    rw [List.foldl_cons]
    rcases List.nodup_cons.mp hnd with ⟨hna, hndt⟩
    by_cases hxt : x ∈ t
    · have hxa : x ≠ a := fun h => hna (h ▸ hxt)
      rw [ih hndt hxt, hbody, colPair_colUpdate_ne s hxa]
    · have hxa : x = a := by
        rcases List.mem_cons.mp hx with h | h
        · exact h
        · exact absurd h hxt
      subst hxa
      rw [foldl_colwise_ne body colf hbody t hxt, hbody, colPair_colUpdate_same]

theorem FindMaximumColumnHeightsBody_eq (res : ℚ) (G : ℚ → ℚ → ℚ) (y : ℤ)
    (s : SWState) (x : ℤ) :
    FindMaximumColumnHeightsBody res G y s x
      = colUpdate s x (bootStep res G x (colPair s x) y) := by
  rw [FindMaximumColumnHeightsBody, bootStep, colPair]
  by_cases h : G (x * res) (y * res) > s.colsMaxima x
  · simp only [if_pos h, colUpdate]
  · simp only [if_neg h, colUpdate]
    simp [Function.update_eq_self]

theorem AdvanceMaximaRowsBody_eq (y : ℤ) (res : ℚ) (G : ℚ → ℚ → ℚ)
    (s : SWState) (x : ℤ) :
    AdvanceMaximaRowsBody y res G s x
      = colUpdate s x (advStep y res G x (colPair s x)) := by
  rw [AdvanceMaximaRowsBody, advStep, colPair, colUpdate]
  by_cases h1 : s.maximaRows x = y - 1
  · by_cases h2 : G (x * res) (y * res) = s.colsMaxima x
    · simp [h1, h2, Function.update_eq_self]
    · simp [h1, h2, Function.update_eq_self]
      rw [← h1]
      simp [Function.update_eq_self]
  · simp [h1, Function.update_eq_self]

theorem FixRescanBody_eq (res : ℚ) (G : ℚ → ℚ → ℚ) (x : ℤ)
    (s : SWState) (y1 : ℤ) :
    FixRescanBody res G x s y1
      = colUpdate s x (rescanStep res G x (colPair s x) y1) := by
  rw [FixRescanBody, rescanStep, colPair, colUpdate]
  by_cases h1 : G (x * res) (y1 * res) > s.colsMaxima x
  · simp [h1]
  · by_cases h2 : s.colsMaxima x = G (x * res) (y1 * res)
    · simp [h1, h2, Function.update_eq_self]
    · simp [h1, h2, Function.update_eq_self]

theorem FixRemainingMaximaBody_eq (y maxy winSize : ℤ) (res : ℚ)
    (G : ℚ → ℚ → ℚ) (s : SWState) (x : ℤ) :
    FixRemainingMaximaBody y maxy winSize res G s x
      = colUpdate s x (fixColStep y maxy winSize res G x (colPair s x)) := by
  rw [FixRemainingMaximaBody, fixColStep]
  by_cases h1 : s.maximaRows x ≤ y - winSize
  · have hb : FixRescanBody res G x
        = fun s y1 => colUpdate s x (rescanStep res G x (colPair s x) y1) :=
      funext fun s => funext fun y1 => FixRescanBody_eq res G x s y1
    rw [show colPair s x = (s.colsMaxima x, s.maximaRows x) from rfl]
    simp only [if_pos h1]
    rw [hb, foldl_fixedcol]
    have hs0 : colPair { s with colsMaxima := Function.update s.colsMaxima x (-FLOAT_MAX) } x
        = (-FLOAT_MAX, s.maximaRows x) := by
      rw [colPair]
      simp
    rw [hs0]
    rw [colUpdate, colUpdate]
    simp [Function.update_idem]
  · rw [show colPair s x = (s.colsMaxima x, s.maximaRows x) from rfl]
    simp only [if_neg h1]
    by_cases h2 : y + winSize + 1 ≤ maxy
    · by_cases h3 : G (x * res) ((y + winSize + 1) * res) > s.colsMaxima x
      · simp [h2, h3, colUpdate]
      · simp [h2, h3, colUpdate, Function.update_eq_self]
    · simp [h2, colUpdate, Function.update_eq_self]

/- ----------------------------------------------------------------- -/
/- Characterization of the running-maximum pair folds. -/

theorem bootStep_fold_char (res : ℚ) (G : ℚ → ℚ → ℚ) (x : ℤ) (ys : List ℤ)
    (v0 : ℚ) (r0 : ℤ) :
    (ys.foldl (bootStep res G x) (v0, r0)).1
        = foldMax (fun y => G (x * res) (y * res)) v0 ys ∧
      ((ys.foldl (bootStep res G x) (v0, r0)) = (v0, r0) ∨
        ((ys.foldl (bootStep res G x) (v0, r0)).2 ∈ ys ∧
          G (x * res) ((ys.foldl (bootStep res G x) (v0, r0)).2 * res)
            = (ys.foldl (bootStep res G x) (v0, r0)).1)) := by
  induction ys generalizing v0 r0 with
  | nil => exact ⟨rfl, Or.inl rfl⟩
  | cons y t ih =>
    rw [List.foldl_cons, foldMax_cons]
    rw [bootStep]
    by_cases h : G (x * res) (y * res) > (v0, r0).1
    · rw [if_pos h]
      rcases ih (G (x * res) (y * res)) y with ⟨ihv, ihw⟩
      constructor
      · rw [ihv]
        have : max (G (x * res) (y * res))
            (foldMax (fun y => G (x * res) (y * res)) v0 t)
            = foldMax (fun y => G (x * res) (y * res)) (G (x * res) (y * res)) t := by
          rw [← foldMax_max]
          have hm : max (G (x * res) (y * res)) v0 = G (x * res) (y * res) :=
            max_eq_left (le_of_lt h)
          rw [hm]
        rw [this]
      · rcases ihw with heq | ⟨hmem, hval⟩
        · right
          rw [heq]
          exact ⟨List.mem_cons_self y t, rfl⟩
        · exact Or.inr ⟨List.mem_cons_of_mem y hmem, hval⟩
    · rw [if_neg h]
      rcases ih v0 r0 with ⟨ihv, ihw⟩
      constructor
      · rw [ihv]
        have hm : max (G (x * res) (y * res)) v0 = v0 :=
          max_eq_right (not_lt.mp h)
        rw [← foldMax_max, hm]
      · rcases ihw with heq | ⟨hmem, hval⟩
        · exact Or.inl heq
        · exact Or.inr ⟨List.mem_cons_of_mem y hmem, hval⟩

theorem rescanStep_fold_char (res : ℚ) (G : ℚ → ℚ → ℚ) (x : ℤ) (ys : List ℤ)
    (v0 : ℚ) (r0 : ℤ) :
    (ys.foldl (rescanStep res G x) (v0, r0)).1
        = foldMax (fun y => G (x * res) (y * res)) v0 ys ∧
      ((ys.foldl (rescanStep res G x) (v0, r0)) = (v0, r0) ∨
        ((ys.foldl (rescanStep res G x) (v0, r0)).2 ∈ ys ∧
          G (x * res) ((ys.foldl (rescanStep res G x) (v0, r0)).2 * res)
            = (ys.foldl (rescanStep res G x) (v0, r0)).1)) := by
  induction ys generalizing v0 r0 with
  | nil => exact ⟨rfl, Or.inl rfl⟩
  | cons y t ih =>
    rw [List.foldl_cons, foldMax_cons]
    rw [rescanStep]
    by_cases h : G (x * res) (y * res) > (v0, r0).1
    · rw [if_pos h]
      rcases ih (G (x * res) (y * res)) y with ⟨ihv, ihw⟩
      constructor
      · rw [ihv, ← foldMax_max, max_eq_left (le_of_lt h)]
      · rcases ihw with heq | ⟨hmem, hval⟩
        · right
          rw [heq]
          exact ⟨List.mem_cons_self y t, rfl⟩
        · exact Or.inr ⟨List.mem_cons_of_mem y hmem, hval⟩
    · rw [if_neg h]
      by_cases h2 : (v0, r0).1 = G (x * res) (y * res)
      · rw [if_pos h2]
        rcases ih v0 y with ⟨ihv, ihw⟩
        constructor
        · rw [show ((v0, r0).1, y) = ((v0 : ℚ), (y : ℤ)) from rfl, ihv,
            ← foldMax_max, max_eq_right (not_lt.mp h)]
        · rcases ihw with heq | ⟨hmem, hval⟩
          · right
            rw [show ((v0, r0).1, y) = ((v0 : ℚ), (y : ℤ)) from rfl, heq]
            refine ⟨List.mem_cons_self y t, ?_⟩
            show G (x * res) (y * res) = v0
            exact (h2).symm
          · right
            rw [show ((v0, r0).1, y) = ((v0 : ℚ), (y : ℤ)) from rfl]
            exact ⟨List.mem_cons_of_mem y hmem, hval⟩
      · rw [if_neg h2]
        rcases ih v0 r0 with ⟨ihv, ihw⟩
        constructor
        · rw [ihv, ← foldMax_max, max_eq_right (not_lt.mp h)]
        · rcases ihw with heq | ⟨hmem, hval⟩
          · exact Or.inl heq
          · exact Or.inr ⟨List.mem_cons_of_mem y hmem, hval⟩

/- Characterization of the reference maxima. -/

theorem heightColMax_ge (res : ℚ) (G : ℚ → ℚ → ℚ) (x : ℤ) {lo hi y1 : ℤ}
    (h1 : lo ≤ y1) (h2 : y1 ≤ hi) :
    G (x * res) (y1 * res) ≤ heightColMax res G x lo hi :=
  le_foldMax _ _ (mem_intRange.mpr ⟨h1, h2⟩)

theorem heightColMax_le (res : ℚ) (G : ℚ → ℚ → ℚ) (x : ℤ) {lo hi : ℤ} {c : ℚ}
    (hc : -FLOAT_MAX ≤ c)
    (h : ∀ y1 : ℤ, lo ≤ y1 → y1 ≤ hi → G (x * res) (y1 * res) ≤ c) :
    heightColMax res G x lo hi ≤ c := by
  apply foldMax_le _ hc
  intro y1 hy1
  rcases mem_intRange.mp hy1 with ⟨h1, h2⟩
  exact h y1 h1 h2

theorem heightColMax_gt_negFM (res : ℚ) (G : ℚ → ℚ → ℚ) (x : ℤ) {lo hi : ℤ}
    (hG : ∀ a b : ℚ, -FLOAT_MAX < G a b) (hne : lo ≤ hi) :
    -FLOAT_MAX < heightColMax res G x lo hi :=
  lt_of_lt_of_le (hG _ _) (heightColMax_ge res G x (le_refl lo) hne)

theorem heightColMax_attained (res : ℚ) (G : ℚ → ℚ → ℚ) (x : ℤ) {lo hi : ℤ}
    (hG : ∀ a b : ℚ, -FLOAT_MAX < G a b) (hne : lo ≤ hi) :
    ∃ y1 : ℤ, lo ≤ y1 ∧ y1 ≤ hi ∧
      heightColMax res G x lo hi = G (x * res) (y1 * res) := by
  rcases foldMax_attained (fun y1 => G (x * res) (y1 * res)) (-FLOAT_MAX)
      (intRange lo hi) with h | ⟨y1, hy1, h⟩
  · exfalso
    have := heightColMax_gt_negFM res G x hG hne
    rw [heightColMax] at this
    rw [h] at this
    exact lt_irrefl _ this
  · rcases mem_intRange.mp hy1 with ⟨h1, h2⟩
    exact ⟨y1, h1, h2, h⟩

/- Function-level per-column characterizations. -/

theorem FindMaximumColumnHeights_colPair (maxx maxy winSize : ℤ) (res : ℚ)
    (G : ℚ → ℚ → ℚ) (s : SWState) {x : ℤ} (hx0 : 0 ≤ x) (hx1 : x ≤ maxx) :
    colPair (FindMaximumColumnHeights maxx maxy winSize res G s) x
      = (intRange 0 (min maxy winSize)).foldl (bootStep res G x) (colPair s x) := by
  rw [FindMaximumColumnHeights]
  generalize intRange 0 (min maxy winSize) = ys
  induction ys generalizing s with
  | nil => rfl
  | cons y t ih =>
    rw [List.foldl_cons, List.foldl_cons,
      ih ((intRange 0 maxx).foldl (FindMaximumColumnHeightsBody res G y) s)]
    congr 1
    exact foldl_colwise_mem (FindMaximumColumnHeightsBody res G y)
      (fun x p => bootStep res G x p y) (FindMaximumColumnHeightsBody_eq res G y) _
      (intRange_nodup 0 maxx) (mem_intRange.mpr ⟨hx0, hx1⟩) s

theorem AdvanceMaximaRows_colPair (y maxx : ℤ) (res : ℚ) (G : ℚ → ℚ → ℚ)
    (s : SWState) {x : ℤ} (hx0 : 0 ≤ x) (hx1 : x ≤ maxx) :
    colPair (AdvanceMaximaRows y maxx res G s) x = advStep y res G x (colPair s x) :=
  foldl_colwise_mem _ _ (AdvanceMaximaRowsBody_eq y res G) _
    (intRange_nodup 0 maxx) (mem_intRange.mpr ⟨hx0, hx1⟩) s

theorem FixRemainingMaxima_colPair (y maxx maxy winSize : ℤ) (res : ℚ)
    (G : ℚ → ℚ → ℚ) (s : SWState) {x : ℤ} (hx0 : 0 ≤ x) (hx1 : x ≤ maxx) :
    colPair (FixRemainingMaxima y maxx maxy winSize res G s) x
      = fixColStep y maxy winSize res G x (colPair s x) :=
  foldl_colwise_mem _ _ (FixRemainingMaximaBody_eq y maxy winSize res G) _
    (intRange_nodup 0 maxx) (mem_intRange.mpr ⟨hx0, hx1⟩) s

/- The invariant: establishment, preservation, and the slide. -/

theorem bootstrap_swInv (maxx maxy winSize : ℤ) (res : ℚ) (G : ℚ → ℚ → ℚ)
    (hmy : 0 ≤ maxy) (hw : 0 ≤ winSize)
    (hG : ∀ a b : ℚ, -FLOAT_MAX < G a b) :
    swInv maxx maxy winSize res G 0
      (FindMaximumColumnHeights maxx maxy winSize res G initialSWState) := by
  intro x hx0 hx1
  have hc := FindMaximumColumnHeights_colPair maxx maxy winSize res G
    initialSWState hx0 hx1
  have hchar := bootStep_fold_char res G x (intRange 0 (min maxy winSize))
    (-FLOAT_MAX) (-1)
  have hfst : (FindMaximumColumnHeights maxx maxy winSize res G initialSWState).colsMaxima x
      = ((intRange 0 (min maxy winSize)).foldl (bootStep res G x) (-FLOAT_MAX, -1)).1 :=
    congrArg Prod.fst hc
  have hsnd : (FindMaximumColumnHeights maxx maxy winSize res G initialSWState).maximaRows x
      = ((intRange 0 (min maxy winSize)).foldl (bootStep res G x) (-FLOAT_MAX, -1)).2 :=
    congrArg Prod.snd hc
  have hcm : (FindMaximumColumnHeights maxx maxy winSize res G initialSWState).colsMaxima x
      = heightColMax res G x 0 (min maxy winSize) := by
    rw [hfst, hchar.1]
    rfl
  have hne : (0 : ℤ) ≤ min maxy winSize := by omega
  have e1 : max 0 (0 - winSize) = 0 := by omega
  have e2 : min maxy (0 + winSize) = min maxy winSize := by omega
  rw [e1, e2]
  rcases hchar.2 with heq | ⟨hmem, hval⟩
  · exfalso
    have h2 : -FLOAT_MAX < heightColMax res G x 0 (min maxy winSize) :=
      heightColMax_gt_negFM res G x hG hne
    have h3 := hchar.1
    rw [heq] at h3
    have h4 : -FLOAT_MAX = heightColMax res G x 0 (min maxy winSize) := h3
    rw [← h4] at h2
    exact lt_irrefl _ h2
  · rcases mem_intRange.mp hmem with ⟨hm1, hm2⟩
    refine ⟨hcm, ?_, ?_, ?_⟩
    · rw [hsnd]; exact hm1
    · rw [hsnd]; exact hm2
    · rw [hsnd, hval]
      exact hfst.symm

theorem advStep_fst (y : ℤ) (res : ℚ) (G : ℚ → ℚ → ℚ) (x : ℤ) (p : ℚ × ℤ) :
    (advStep y res G x p).1 = p.1 := by
  rw [advStep]
  split
  · split
    · rfl
    · rfl
  · rfl

theorem advance_swInv (y maxx maxy winSize : ℤ) (res : ℚ) (G : ℚ → ℚ → ℚ)
    (s : SWState) (hy0 : 0 ≤ y) (hy1 : y ≤ maxy) (hw : 0 ≤ winSize)
    (hinv : swInv maxx maxy winSize res G y s) :
    swInv maxx maxy winSize res G y (AdvanceMaximaRows y maxx res G s) := by
  intro x hx0 hx1
  rcases hinv x hx0 hx1 with ⟨hcm, hr1, hr2, hval⟩
  have hc := AdvanceMaximaRows_colPair y maxx res G s hx0 hx1
  have hpf : (colPair s x).1 = s.colsMaxima x := rfl
  have hcm2 : (AdvanceMaximaRows y maxx res G s).colsMaxima x = s.colsMaxima x := by
    have h : (AdvanceMaximaRows y maxx res G s).colsMaxima x
        = (advStep y res G x (colPair s x)).1 := congrArg Prod.fst hc
    rw [advStep_fst] at h
    exact h
  have hsnd : (AdvanceMaximaRows y maxx res G s).maximaRows x
      = (advStep y res G x (colPair s x)).2 := congrArg Prod.snd hc
  rw [advStep] at hsnd
  by_cases h1 : (colPair s x).2 = y - 1
  · rw [if_pos h1] at hsnd
    by_cases h2 : G (x * res) (y * res) = (colPair s x).1
    · rw [if_pos h2] at hsnd
      have hmr : (AdvanceMaximaRows y maxx res G s).maximaRows x = y := hsnd
      refine ⟨by rw [hcm2]; exact hcm, by rw [hmr]; omega, by rw [hmr]; omega, ?_⟩
      rw [hmr, hcm2]
      rw [hpf] at h2
      exact h2
    · rw [if_neg h2] at hsnd
      have hmr : (AdvanceMaximaRows y maxx res G s).maximaRows x
          = s.maximaRows x := hsnd
      exact ⟨by rw [hcm2]; exact hcm, by rw [hmr]; exact hr1,
        by rw [hmr]; exact hr2, by rw [hmr, hcm2]; exact hval⟩
  · rw [if_neg h1] at hsnd
    have hmr : (AdvanceMaximaRows y maxx res G s).maximaRows x
        = s.maximaRows x := hsnd
    exact ⟨by rw [hcm2]; exact hcm, by rw [hmr]; exact hr1,
      by rw [hmr]; exact hr2, by rw [hmr, hcm2]; exact hval⟩

/-- The slide of one column's vertical window by `FixRemainingMaxima`:
    from the invariant at row `y`, the new running maximum is the true
    column maximum over the window centered at `y + 1`, and (while
    another row remains) the recorded row is in the new window and
    attains it. -/
theorem fixColStep_char (y maxy winSize : ℤ) (res : ℚ) (G : ℚ → ℚ → ℚ) (x : ℤ)
    (hG : ∀ a b : ℚ, -FLOAT_MAX < G a b) (hw : 0 ≤ winSize)
    (hy0 : 0 ≤ y) (hy1 : y ≤ maxy) (v : ℚ) (r : ℤ)
    (hv : v = heightColMax res G x (max 0 (y - winSize)) (min maxy (y + winSize)))
    (hr1 : max 0 (y - winSize) ≤ r) (hr2 : r ≤ min maxy (y + winSize))
    (hvr : G (x * res) (r * res) = v) :
    (fixColStep y maxy winSize res G x (v, r)).1
        = heightColMax res G x (max 0 (y - winSize + 1)) (min maxy (y + winSize + 1)) ∧
      (y + 1 ≤ maxy →
        max 0 (y - winSize + 1) ≤ (fixColStep y maxy winSize res G x (v, r)).2 ∧
        (fixColStep y maxy winSize res G x (v, r)).2 ≤ min maxy (y + winSize + 1) ∧
        G (x * res) ((fixColStep y maxy winSize res G x (v, r)).2 * res)
          = (fixColStep y maxy winSize res G x (v, r)).1) := by
  simp only [fixColStep]
  by_cases hA : r ≤ y - winSize
  · simp only [if_pos hA]
    have hchar := rescanStep_fold_char res G x
      (intRange (max 0 (y - winSize + 1)) (min maxy (y + winSize + 1)))
      (-FLOAT_MAX) r
    constructor
    · rw [hchar.1]
      rfl
    · intro hy2
      have hne : max 0 (y - winSize + 1) ≤ min maxy (y + winSize + 1) := by omega
      rcases hchar.2 with heq | ⟨hmem, hval2⟩
      · exfalso
        have h2 : -FLOAT_MAX < heightColMax res G x (max 0 (y - winSize + 1))
            (min maxy (y + winSize + 1)) := heightColMax_gt_negFM res G x hG hne
        have h3 := hchar.1
        rw [heq] at h3
        have h4 : -FLOAT_MAX = heightColMax res G x (max 0 (y - winSize + 1))
            (min maxy (y + winSize + 1)) := h3
        rw [← h4] at h2
        exact lt_irrefl _ h2
      · rcases mem_intRange.mp hmem with ⟨h5, h6⟩
        exact ⟨h5, h6, hval2⟩
  · simp only [if_neg hA]
    have hrge : max 0 (y - winSize + 1) ≤ r := by omega
    by_cases hB : y + winSize + 1 ≤ maxy
    · simp only [if_pos hB]
      have hkey : heightColMax res G x (max 0 (y - winSize + 1))
            (min maxy (y + winSize + 1))
          = max (G (x * res) (((y + winSize + 1 : ℤ) : ℚ) * res)) v := by
        apply le_antisymm
        · apply heightColMax_le
          · exact le_trans (le_of_lt (hG (x * res) (((y + winSize + 1 : ℤ) : ℚ) * res)))
              (le_max_left _ _)
          · intro y1 h1 h2
            by_cases hy1 : y1 = y + winSize + 1
            · rw [hy1]
              exact le_max_left _ _
            · have h4 : max 0 (y - winSize) ≤ y1 := by omega
              have h5 : y1 ≤ min maxy (y + winSize) := by omega
              have h6 := heightColMax_ge res G x h4 h5
              rw [← hv] at h6
              exact le_trans h6 (le_max_right _ _)
        · apply max_le
          · exact heightColMax_ge res G x (by omega) (by omega)
          · rw [← hvr]
            exact heightColMax_ge res G x hrge (by omega)
      by_cases hC : G (x * res) (((y + winSize + 1 : ℤ) : ℚ) * res) > v
      · simp only [if_pos hC]
        constructor
        · rw [hkey]
          exact (max_eq_left (le_of_lt hC)).symm
        · intro hy2
          refine ⟨by omega, by omega, ?_⟩
          trivial
      · simp only [if_neg hC]
        constructor
        · rw [hkey]
          exact (max_eq_right (not_lt.mp hC)).symm
        · intro hy2
          exact ⟨hrge, by omega, hvr⟩
    · simp only [if_neg hB]
      have hkey : heightColMax res G x (max 0 (y - winSize + 1))
            (min maxy (y + winSize + 1)) = v := by
        apply le_antisymm
        · apply heightColMax_le
          · rw [← hvr]
            exact le_of_lt (hG _ _)
          · intro y1 h1 h2
            have h4 : max 0 (y - winSize) ≤ y1 := by omega
            have h5 : y1 ≤ min maxy (y + winSize) := by omega
            have h6 := heightColMax_ge res G x h4 h5
            rw [← hv] at h6
            exact h6
        · rw [← hvr]
          exact heightColMax_ge res G x hrge (by omega)
      constructor
      · exact hkey.symm
      · intro hy2
        exact ⟨hrge, by omega, hvr⟩

theorem fix_swInv_main (y maxx maxy winSize : ℤ) (res : ℚ) (G : ℚ → ℚ → ℚ)
    (s : SWState) (hG : ∀ a b : ℚ, -FLOAT_MAX < G a b) (hw : 0 ≤ winSize)
    (hy0 : 0 ≤ y) (hy1 : y ≤ maxy)
    (hinv : swInv maxx maxy winSize res G y s) :
    (∀ x : ℤ, 0 ≤ x → x ≤ maxx →
        (FixRemainingMaxima y maxx maxy winSize res G s).colsMaxima x
          = heightColMax res G x (max 0 (y - winSize + 1)) (min maxy (y + winSize + 1))) ∧
      (y + 1 ≤ maxy →
        swInv maxx maxy winSize res G (y + 1)
          (FixRemainingMaxima y maxx maxy winSize res G s)) := by
  constructor
  · intro x hx0 hx1
    rcases hinv x hx0 hx1 with ⟨hcm, hr1, hr2, hval⟩
    have hc := FixRemainingMaxima_colPair y maxx maxy winSize res G s hx0 hx1
    have hchar := fixColStep_char y maxy winSize res G x hG hw hy0 hy1
      (s.colsMaxima x) (s.maximaRows x) hcm hr1 hr2 hval
    have hfst : (FixRemainingMaxima y maxx maxy winSize res G s).colsMaxima x
        = (fixColStep y maxy winSize res G x (s.colsMaxima x, s.maximaRows x)).1 :=
      congrArg Prod.fst hc
    rw [hfst, hchar.1]
  · intro hy2 x hx0 hx1
    rcases hinv x hx0 hx1 with ⟨hcm, hr1, hr2, hval⟩
    have hc := FixRemainingMaxima_colPair y maxx maxy winSize res G s hx0 hx1
    have hchar := fixColStep_char y maxy winSize res G x hG hw hy0 hy1
      (s.colsMaxima x) (s.maximaRows x) hcm hr1 hr2 hval
    have hfst : (FixRemainingMaxima y maxx maxy winSize res G s).colsMaxima x
        = (fixColStep y maxy winSize res G x (s.colsMaxima x, s.maximaRows x)).1 :=
      congrArg Prod.fst hc
    have hsnd : (FixRemainingMaxima y maxx maxy winSize res G s).maximaRows x
        = (fixColStep y maxy winSize res G x (s.colsMaxima x, s.maximaRows x)).2 :=
      congrArg Prod.snd hc
    rcases hchar.2 hy2 with ⟨hw1, hw2, hw3⟩
    have e1 : max 0 (y + 1 - winSize) = max 0 (y - winSize + 1) := by omega
    have e2 : min maxy (y + 1 + winSize) = min maxy (y + winSize + 1) := by omega
    refine ⟨?_, ?_, ?_, ?_⟩
    · rw [e1, e2, hfst, hchar.1]
    · rw [e1, hsnd]; exact hw1
    · rw [e2, hsnd]; exact hw2
    · rw [hsnd, hfst]; exact hw3

/- FindRadialMaximum: the written cells and the untouched indices. -/

theorem FindRadialMaximumBody_eq (y maxx winSize : ℤ) (cm : ℤ → ℚ) :
    FindRadialMaximumBody y maxx winSize cm
      = fun mesh x => Function.update mesh (x + y * maxx)
          (foldMax cm (-FLOAT_MAX)
            (intRange (max (x - winSize) 0) (min (maxx - 1) (x + winSize)))) :=
  rfl

theorem radial_written (y maxx winSize : ℤ) (cm : ℤ → ℚ) (mesh : ℤ → ℚ)
    (x : ℤ) (hx0 : 0 ≤ x) (hx1 : x ≤ maxx - 1) :
    FindRadialMaximum y maxx winSize cm mesh (x + y * maxx)
      = foldMax cm (-FLOAT_MAX)
          (intRange (max (x - winSize) 0) (min (maxx - 1) (x + winSize))) := by
  rw [FindRadialMaximum, FindRadialMaximumBody_eq]
  exact foldl_update_mem (fun x => x + y * maxx)
    (fun x => foldMax cm (-FLOAT_MAX)
      (intRange (max (x - winSize) 0) (min (maxx - 1) (x + winSize))))
    _ mesh x (mem_intRange.mpr ⟨hx0, hx1⟩)
    (fun a ha hkey => by rw [add_right_cancel hkey])

theorem radial_not_written (y maxx winSize : ℤ) (cm : ℤ → ℚ) (mesh : ℤ → ℚ)
    (j : ℤ) (h : ∀ x : ℤ, 0 ≤ x → x ≤ maxx - 1 → x + y * maxx ≠ j) :
    FindRadialMaximum y maxx winSize cm mesh j = mesh j := by
  rw [FindRadialMaximum, FindRadialMaximumBody_eq]
  apply foldl_update_of_ne
  intro i hi
  rcases mem_intRange.mp hi with ⟨h1, h2⟩
  exact h i h1 h2

/- The square-window maximum. -/

theorem heightSquareMax_ge (res : ℚ) (G : ℚ → ℚ → ℚ) {xlo xhi ylo yhi i j : ℤ}
    (h1 : xlo ≤ i) (h2 : i ≤ xhi) (h3 : ylo ≤ j) (h4 : j ≤ yhi) :
    G (i * res) (j * res) ≤ heightSquareMax res G xlo xhi ylo yhi :=
  le_trans (heightColMax_ge res G i h3 h4)
    (le_foldMax _ _ (mem_intRange.mpr ⟨h1, h2⟩))

theorem heightSquareMax_attained (res : ℚ) (G : ℚ → ℚ → ℚ) {xlo xhi ylo yhi : ℤ}
    (hG : ∀ a b : ℚ, -FLOAT_MAX < G a b) (hxne : xlo ≤ xhi) (hyne : ylo ≤ yhi) :
    ∃ i j : ℤ, xlo ≤ i ∧ i ≤ xhi ∧ ylo ≤ j ∧ j ≤ yhi ∧
      heightSquareMax res G xlo xhi ylo yhi = G (i * res) (j * res) := by
  have hgt : -FLOAT_MAX < heightSquareMax res G xlo xhi ylo yhi :=
    lt_of_lt_of_le (hG (xlo * res) (ylo * res))
      (heightSquareMax_ge res G (le_refl xlo) hxne (le_refl ylo) hyne)
  rcases foldMax_attained (fun i => heightColMax res G i ylo yhi) (-FLOAT_MAX)
      (intRange xlo xhi) with h | ⟨i, hi, h⟩
  · exfalso
    rw [heightSquareMax] at hgt
    rw [h] at hgt
    exact lt_irrefl _ hgt
  · rcases mem_intRange.mp hi with ⟨h1, h2⟩
    rcases heightColMax_attained res G i hG hyne with ⟨j, h3, h4, h5⟩
    refine ⟨i, j, h1, h2, h3, h4, ?_⟩
    rw [heightSquareMax, h, h5]

/-- One row of the per-row loop: from the invariant at row `y`, the mesh
    row `y` receives the true square-window maxima, no other index is
    touched, the post-`Fix` column maxima are the claimed window maxima,
    and the invariant slides to row `y + 1`. -/
theorem smoothRowBody_char (maxx maxy winSize : ℤ) (res : ℚ) (G : ℚ → ℚ → ℚ)
    (y : ℤ) (s : SWState) (mesh : ℤ → ℚ)
    (hG : ∀ a b : ℚ, -FLOAT_MAX < G a b) (hw : 0 ≤ winSize)
    (hy0 : 0 ≤ y) (hy1 : y ≤ maxy)
    (hinv : swInv maxx maxy winSize res G y s) :
    (∀ x : ℤ, 0 ≤ x → x ≤ maxx - 1 →
        (smoothRowBody maxx maxy winSize res G (s, mesh) y).2 (x + y * maxx)
          = heightSquareMax res G (max (x - winSize) 0) (min (maxx - 1) (x + winSize))
              (max 0 (y - winSize)) (min maxy (y + winSize))) ∧
      (∀ j : ℤ, (∀ x : ℤ, 0 ≤ x → x ≤ maxx - 1 → x + y * maxx ≠ j) →
        (smoothRowBody maxx maxy winSize res G (s, mesh) y).2 j = mesh j) ∧
      (∀ x : ℤ, 0 ≤ x → x ≤ maxx →
        (smoothRowBody maxx maxy winSize res G (s, mesh) y).1.colsMaxima x
          = heightColMax res G x (max 0 (y - winSize + 1)) (min maxy (y + winSize + 1))) ∧
      (y + 1 ≤ maxy →
        swInv maxx maxy winSize res G (y + 1)
          (smoothRowBody maxx maxy winSize res G (s, mesh) y).1) := by
  have hinv2 : swInv maxx maxy winSize res G y (AdvanceMaximaRows y maxx res G s) :=
    advance_swInv y maxx maxy winSize res G s hy0 hy1 hw hinv
  have hfix := fix_swInv_main y maxx maxy winSize res G
    (AdvanceMaximaRows y maxx res G s) hG hw hy0 hy1 hinv2
  refine ⟨?_, ?_, hfix.1, hfix.2⟩
  · intro x hx0 hx1
    have hwrit := radial_written y maxx winSize
      (AdvanceMaximaRows y maxx res G s).colsMaxima mesh x hx0 hx1
    have hcongr : foldMax (AdvanceMaximaRows y maxx res G s).colsMaxima (-FLOAT_MAX)
          (intRange (max (x - winSize) 0) (min (maxx - 1) (x + winSize)))
        = heightSquareMax res G (max (x - winSize) 0) (min (maxx - 1) (x + winSize))
            (max 0 (y - winSize)) (min maxy (y + winSize)) := by
      rw [heightSquareMax]
      apply foldMax_congr
      intro i hi
      rcases mem_intRange.mp hi with ⟨h1, h2⟩
      exact (hinv2 i (by omega) (by omega)).1
    show FindRadialMaximum y maxx winSize
        (AdvanceMaximaRows y maxx res G s).colsMaxima mesh (x + y * maxx) = _
    rw [hwrit, hcongr]
  · intro j hj
    exact radial_not_written y maxx winSize _ mesh j hj

/-- The per-row loop of `MakeSmoothMesh` up to and including row `y`:
    the column maxima hold the claimed post-row window maxima, the
    invariant is ready for row `y + 1`, and every processed mesh row
    holds the true square-window maxima. -/
theorem windowedPassUpTo_char (maxx maxy winSize : ℤ) (res : ℚ)
    (G : ℚ → ℚ → ℚ) (hG : ∀ a b : ℚ, -FLOAT_MAX < G a b)
    (hw : 0 ≤ winSize) (hmy : 0 ≤ maxy) :
    ∀ y : ℤ, 0 ≤ y → y ≤ maxy →
      (∀ x : ℤ, 0 ≤ x → x ≤ maxx →
        (windowedPassUpTo maxx maxy winSize res G y).1.colsMaxima x
          = heightColMax res G x (max 0 (y - winSize + 1)) (min maxy (y + winSize + 1))) ∧
      (y + 1 ≤ maxy →
        swInv maxx maxy winSize res G (y + 1)
          (windowedPassUpTo maxx maxy winSize res G y).1) ∧
      (∀ y' x : ℤ, 0 ≤ y' → y' ≤ y → 0 ≤ x → x ≤ maxx - 1 →
        (windowedPassUpTo maxx maxy winSize res G y).2 (x + y' * maxx)
          = heightSquareMax res G (max (x - winSize) 0) (min (maxx - 1) (x + winSize))
              (max 0 (y' - winSize)) (min maxy (y' + winSize))) := by
  have key : ∀ n : ℕ, ∀ y : ℤ, y.toNat = n → 0 ≤ y → y ≤ maxy →
      (∀ x : ℤ, 0 ≤ x → x ≤ maxx →
        (windowedPassUpTo maxx maxy winSize res G y).1.colsMaxima x
          = heightColMax res G x (max 0 (y - winSize + 1)) (min maxy (y + winSize + 1))) ∧
      (y + 1 ≤ maxy →
        swInv maxx maxy winSize res G (y + 1)
          (windowedPassUpTo maxx maxy winSize res G y).1) ∧
      (∀ y' x : ℤ, 0 ≤ y' → y' ≤ y → 0 ≤ x → x ≤ maxx - 1 →
        (windowedPassUpTo maxx maxy winSize res G y).2 (x + y' * maxx)
          = heightSquareMax res G (max (x - winSize) 0) (min (maxx - 1) (x + winSize))
              (max 0 (y' - winSize)) (min maxy (y' + winSize))) := by
    intro n
    induction n with
    | zero =>
      intro y hn hy0 hy1
      have hy : y = 0 := by omega
      subst hy
      have hr : intRange 0 0 = [0] := by
        rw [intRange_cons le_rfl, intRange_eq_nil (by omega)]
      have hun : windowedPassUpTo maxx maxy winSize res G 0
          = smoothRowBody maxx maxy winSize res G
              (FindMaximumColumnHeights maxx maxy winSize res G initialSWState,
                fun _ => 0) 0 := by
        rw [windowedPassUpTo, hr, List.foldl_cons, List.foldl_nil]
      have hboot := bootstrap_swInv maxx maxy winSize res G hmy hw hG
      have hchar := smoothRowBody_char maxx maxy winSize res G 0
        (FindMaximumColumnHeights maxx maxy winSize res G initialSWState)
        (fun _ => 0) hG hw le_rfl hy1 hboot
      rw [hun]
      refine ⟨hchar.2.2.1, hchar.2.2.2, ?_⟩
      intro y' x hy'0 hy'1 hx0 hx1
      have hy' : y' = 0 := by omega
      subst hy'
      exact hchar.1 x hx0 hx1
    | succ m ih =>
      intro y hn hy0 hy1
      have hy1' : 1 ≤ y := by omega
      have hstep : windowedPassUpTo maxx maxy winSize res G y
          = smoothRowBody maxx maxy winSize res G
              (windowedPassUpTo maxx maxy winSize res G (y - 1)) y := by
        rw [windowedPassUpTo, windowedPassUpTo,
          intRange_snoc (by omega : (0 : ℤ) ≤ y), List.foldl_append,
          List.foldl_cons, List.foldl_nil]
      rcases ih (y - 1) (by omega) (by omega) (by omega) with ⟨ihcm, ihinv, ihmesh⟩
      have hinv1 : swInv maxx maxy winSize res G y
          (windowedPassUpTo maxx maxy winSize res G (y - 1)).1 := by
        have h := ihinv (by omega)
        have e : y - 1 + 1 = y := by omega
        rw [e] at h
        exact h
      have hchar := smoothRowBody_char maxx maxy winSize res G y
        (windowedPassUpTo maxx maxy winSize res G (y - 1)).1
        (windowedPassUpTo maxx maxy winSize res G (y - 1)).2 hG hw (by omega)
        hy1 hinv1
      rw [hstep]
      refine ⟨hchar.2.2.1, hchar.2.2.2, ?_⟩
      intro y' x hy'0 hy'1 hx0 hx1
      by_cases hcase : y' = y
      · subst hcase
        exact hchar.1 x hx0 hx1
      · have hne : ∀ x' : ℤ, 0 ≤ x' → x' ≤ maxx - 1 →
            x' + y * maxx ≠ x + y' * maxx := by
          intro x' h1 h2 heq
          rcases cellIndex_inj h1 h2 hx0 hx1 heq with ⟨_, h3⟩
          exact hcase h3.symm
        rw [hchar.2.1 (x + y' * maxx) hne]
        exact ihmesh y' x hy'0 (by omega) hx0 hx1
  intro y hy0 hy1
  exact key y.toNat y rfl hy0 hy1

/- ----------------------------------------------------------------- -/
/- C1: full correctness of the sliding-window maximum pass. -/

/-- C1: for every height field (any `G` with all heights above the
    `-FLT_MAX` sentinel) and every grid: (a) after the per-row loop has
    processed row `y`, `colsMaxima[x]` equals the true maximum of
    `height(x·res, y1·res)` over the rows `[y-winSize+1, y+winSize+1]`
    intersected with `[0, maxy]` (as the `-FLT_MAX`-seeded fold), it
    dominates every height in that window and is attained in it whenever
    the window is nonempty; (b) the value `FindRadialMaximum` left at
    flat index `x + y·maxx` for cell `(x, y)` equals the true maximum
    terrain height over the square window of half-width `winSize` cells
    centered at `(x, y)` clamped to the grid, dominating every height of
    the window and attained at one of its cells. -/
theorem sliding_window_pass_correct (maxx maxy winSize : ℤ) (res : ℚ)
    (G : ℚ → ℚ → ℚ) (hG : ∀ a b : ℚ, -FLOAT_MAX < G a b)
    (hmx : 1 ≤ maxx) (hmy : 0 ≤ maxy) (hw : 0 ≤ winSize) :
    (∀ y x : ℤ, 0 ≤ y → y ≤ maxy → 0 ≤ x → x ≤ maxx →
      (windowedPassUpTo maxx maxy winSize res G y).1.colsMaxima x
          = heightColMax res G x (max 0 (y - winSize + 1)) (min maxy (y + winSize + 1)) ∧
        (∀ y1 : ℤ, max 0 (y - winSize + 1) ≤ y1 → y1 ≤ min maxy (y + winSize + 1) →
          G (x * res) (y1 * res)
            ≤ (windowedPassUpTo maxx maxy winSize res G y).1.colsMaxima x) ∧
        (max 0 (y - winSize + 1) ≤ min maxy (y + winSize + 1) →
          ∃ y1 : ℤ, max 0 (y - winSize + 1) ≤ y1 ∧ y1 ≤ min maxy (y + winSize + 1) ∧
            (windowedPassUpTo maxx maxy winSize res G y).1.colsMaxima x
              = G (x * res) (y1 * res))) ∧
    (∀ y x : ℤ, 0 ≤ y → y ≤ maxy → 0 ≤ x → x ≤ maxx - 1 →
      windowedPass maxx maxy winSize res G (x + y * maxx)
          = heightSquareMax res G (max (x - winSize) 0) (min (maxx - 1) (x + winSize))
              (max 0 (y - winSize)) (min maxy (y + winSize)) ∧
        (∀ i j : ℤ, max (x - winSize) 0 ≤ i → i ≤ min (maxx - 1) (x + winSize) →
          max 0 (y - winSize) ≤ j → j ≤ min maxy (y + winSize) →
          G (i * res) (j * res) ≤ windowedPass maxx maxy winSize res G (x + y * maxx)) ∧
        (∃ i j : ℤ, max (x - winSize) 0 ≤ i ∧ i ≤ min (maxx - 1) (x + winSize) ∧
          max 0 (y - winSize) ≤ j ∧ j ≤ min maxy (y + winSize) ∧
          windowedPass maxx maxy winSize res G (x + y * maxx)
            = G (i * res) (j * res))) := by
  constructor
  · intro y x hy0 hy1 hx0 hx1
    have hcm := (windowedPassUpTo_char maxx maxy winSize res G hG hw hmy
      y hy0 hy1).1 x hx0 hx1
    refine ⟨hcm, ?_, ?_⟩
    · intro y1 h1 h2
      rw [hcm]
      exact heightColMax_ge res G x h1 h2
    · intro hne
      rcases heightColMax_attained res G x hG hne with ⟨y1, h1, h2, h3⟩
      exact ⟨y1, h1, h2, by rw [hcm]; exact h3⟩
  · intro y x hy0 hy1 hx0 hx1
    have hmesh := (windowedPassUpTo_char maxx maxy winSize res G hG hw hmy
      maxy hmy le_rfl).2.2 y x hy0 hy1 hx0 hx1
    have hxne : max (x - winSize) 0 ≤ min (maxx - 1) (x + winSize) := by omega
    have hyne : max 0 (y - winSize) ≤ min maxy (y + winSize) := by omega
    have hm2 : windowedPass maxx maxy winSize res G (x + y * maxx)
        = heightSquareMax res G (max (x - winSize) 0) (min (maxx - 1) (x + winSize))
            (max 0 (y - winSize)) (min maxy (y + winSize)) := hmesh
    refine ⟨hm2, ?_, ?_⟩
    · intro i j h1 h2 h3 h4
      rw [hm2]
      exact heightSquareMax_ge res G h1 h2 h3 h4
    · rcases heightSquareMax_attained res G hG hxne hyne with
        ⟨i, j, h1, h2, h3, h4, h5⟩
      refine ⟨i, j, h1, h2, h3, h4, ?_⟩
      rw [hm2]
      exact h5

/-- C1 witness: the sliding-window correctness instantiated on a 2×2-cell
    grid (`maxx = 2`, `maxy = 1`), `winSize = 1`, `res = 1` and the
    constant height field 5. -/
theorem sliding_window_pass_correct_witness :
    ((∀ a b : ℚ, -FLOAT_MAX < (fun _ _ => (5 : ℚ)) a b) ∧
        (1 : ℤ) ≤ 2 ∧ (0 : ℤ) ≤ 1 ∧ (0 : ℤ) ≤ 1) ∧
      ((∀ y x : ℤ, 0 ≤ y → y ≤ 1 → 0 ≤ x → x ≤ 2 →
        (windowedPassUpTo 2 1 1 1 (fun _ _ => 5) y).1.colsMaxima x
            = heightColMax 1 (fun _ _ => 5) x (max 0 (y - 1 + 1)) (min 1 (y + 1 + 1)) ∧
          (∀ y1 : ℤ, max 0 (y - 1 + 1) ≤ y1 → y1 ≤ min 1 (y + 1 + 1) →
            (fun _ _ => (5 : ℚ)) (x * 1) (y1 * 1)
              ≤ (windowedPassUpTo 2 1 1 1 (fun _ _ => 5) y).1.colsMaxima x) ∧
          (max 0 (y - 1 + 1) ≤ min 1 (y + 1 + 1) →
            ∃ y1 : ℤ, max 0 (y - 1 + 1) ≤ y1 ∧ y1 ≤ min 1 (y + 1 + 1) ∧
              (windowedPassUpTo 2 1 1 1 (fun _ _ => 5) y).1.colsMaxima x
                = (fun _ _ => (5 : ℚ)) (x * 1) (y1 * 1))) ∧
      (∀ y x : ℤ, 0 ≤ y → y ≤ 1 → 0 ≤ x → x ≤ 2 - 1 →
        windowedPass 2 1 1 1 (fun _ _ => 5) (x + y * 2)
            = heightSquareMax 1 (fun _ _ => 5) (max (x - 1) 0) (min (2 - 1) (x + 1))
                (max 0 (y - 1)) (min 1 (y + 1)) ∧
          (∀ i j : ℤ, max (x - 1) 0 ≤ i → i ≤ min (2 - 1) (x + 1) →
            max 0 (y - 1) ≤ j → j ≤ min 1 (y + 1) →
            (fun _ _ => (5 : ℚ)) (i * 1) (j * 1)
              ≤ windowedPass 2 1 1 1 (fun _ _ => 5) (x + y * 2)) ∧
          (∃ i j : ℤ, max (x - 1) 0 ≤ i ∧ i ≤ min (2 - 1) (x + 1) ∧
            max 0 (y - 1) ≤ j ∧ j ≤ min 1 (y + 1) ∧
            windowedPass 2 1 1 1 (fun _ _ => 5) (x + y * 2)
              = (fun _ _ => (5 : ℚ)) (i * 1) (j * 1)))) :=
  ⟨⟨fun _ _ => by norm_num [FLOAT_MAX], by decide, by decide, by decide⟩,
    sliding_window_pass_correct 2 1 1 1 (fun _ _ => 5)
      (fun _ _ => by norm_num [FLOAT_MAX]) (by decide) (by decide) (by decide)⟩

/- ----------------------------------------------------------------- -/
/- C4: the flat layout of the mesh. -/

/-- Evaluation of the reference maxima on one-cell windows. -/
theorem heightColMax_single (res : ℚ) (G : ℚ → ℚ → ℚ) (x b : ℤ) :
    heightColMax res G x b b = max (G (x * res) (b * res)) (-FLOAT_MAX) := by
  have hr : intRange b b = [b] := by
    rw [intRange_cons le_rfl, intRange_eq_nil (by omega)]
  rw [heightColMax, hr, foldMax_cons, foldMax_nil]

theorem heightSquareMax_single (res : ℚ) (G : ℚ → ℚ → ℚ) (a b : ℤ)
    (h : -FLOAT_MAX ≤ G (a * res) (b * res)) :
    heightSquareMax res G a a b b = G (a * res) (b * res) := by
  have hr : intRange a a = [a] := by
    rw [intRange_cons le_rfl, intRange_eq_nil (by omega)]
  rw [heightSquareMax, hr, foldMax_cons, foldMax_nil, heightColMax_single,
    max_eq_left h, max_eq_left h]

/-- C4 counterexample: the cells are NOT addressed at
    `x + y·(maxx+1)`.  On a 2-column, 3-row grid (`maxx = 2`, `maxy = 2`)
    with `winSize = 0`, `res = 1` and heights
    `G(a,b) = max(-17, min(17, a + 10b))`, the
    flat entry at the claimed index of cell `(0, 1)` — `0 + 1·(2+1) = 3`
    — holds 11 (the pass stored cell `(1, 1)` there: the real stride is
    `maxx = 2`), while the true windowed maximum of cell `(0, 1)` is 10. -/
theorem mesh_claimed_stride_counterexample :
    windowedPass 2 2 0 1 (fun a b => max (-17) (min 17 (a + 10 * b))) (0 + 1 * (2 + 1)) = 11 ∧
      heightSquareMax 1 (fun a b => max (-17) (min 17 (a + 10 * b))) (max (0 - 0) 0)
          (min (2 - 1) (0 + 0)) (max 0 (1 - 0)) (min 2 (1 + 0)) = 10 ∧
      (11 : ℚ) ≠ 10 := by
  have hG : ∀ a b : ℚ, -FLOAT_MAX
      < (fun a b : ℚ => max (-17) (min 17 (a + 10 * b))) a b := by
    intro a b
    have h1 : (-FLOAT_MAX : ℚ) < -17 := by norm_num [FLOAT_MAX]
    exact lt_of_lt_of_le h1 (le_max_left _ _)
  refine ⟨?_, ?_, by norm_num⟩
  · have hchar := (windowedPassUpTo_char 2 2 0 1 (fun a b => max (-17) (min 17 (a + 10 * b))) hG
      (by norm_num) (by norm_num) 2 (by norm_num) le_rfl).2.2 1 1
      (by norm_num) (by norm_num) (by norm_num) (by norm_num)
    have hidx : (0 + 1 * (2 + 1) : ℤ) = 1 + 1 * 2 := by norm_num
    rw [hidx]
    have h2 : windowedPass 2 2 0 1 (fun a b => max (-17) (min 17 (a + 10 * b))) (1 + 1 * 2)
        = heightSquareMax 1 (fun a b => max (-17) (min 17 (a + 10 * b))) (max (1 - 0) 0)
            (min (2 - 1) (1 + 0)) (max 0 (1 - 0)) (min 2 (1 + 0)) := hchar
    rw [h2]
    have e1 : (max (1 - 0) 0 : ℤ) = 1 := by omega
    have e2 : (min (2 - 1) (1 + 0) : ℤ) = 1 := by omega
    have e3 : (max 0 (1 - 0) : ℤ) = 1 := by omega
    have e4 : (min 2 (1 + 0) : ℤ) = 1 := by omega
    rw [e1, e2, e3, e4, heightSquareMax_single]
    · norm_num [min_def, max_def]
    · norm_num [FLOAT_MAX, min_def, max_def]
  · have e1 : (max (0 - 0) 0 : ℤ) = 0 := by omega
    have e2 : (min (2 - 1) (0 + 0) : ℤ) = 0 := by omega
    have e3 : (max 0 (1 - 0) : ℤ) = 1 := by omega
    have e4 : (min 2 (1 + 0) : ℤ) = 1 := by omega
    rw [e1, e2, e3, e4, heightSquareMax_single]
    · norm_num [min_def, max_def]
    · norm_num [FLOAT_MAX, min_def, max_def]

/-- C4 (amended): the mesh is allocated as a flat array of
    `(maxx+1) × (maxy+1)` floats, but the build addresses cell `(x, y)`
    at flat index `x + y·maxx` (row stride `maxx`, columns
    `0 ≤ x ≤ maxx-1`, rows `0 ≤ y ≤ maxy`): that entry holds the cell's
    windowed maximum and lies inside the allocation. -/
theorem mesh_layout_stride_maxx (maxx maxy winSize : ℤ) (res : ℚ)
    (G : ℚ → ℚ → ℚ) (hG : ∀ a b : ℚ, -FLOAT_MAX < G a b)
    (hmx : 1 ≤ maxx) (hmy : 0 ≤ maxy) (hw : 0 ≤ winSize) :
    ∀ y x : ℤ, 0 ≤ y → y ≤ maxy → 0 ≤ x → x ≤ maxx - 1 →
      windowedPass maxx maxy winSize res G (x + y * maxx)
          = heightSquareMax res G (max (x - winSize) 0) (min (maxx - 1) (x + winSize))
              (max 0 (y - winSize)) (min maxy (y + winSize)) ∧
        0 ≤ x + y * maxx ∧ x + y * maxx < meshAllocSize maxx maxy := by
  intro y x hy0 hy1 hx0 hx1
  have hmesh := (windowedPassUpTo_char maxx maxy winSize res G hG hw hmy
    maxy hmy le_rfl).2.2 y x hy0 hy1 hx0 hx1
  have hm2 : windowedPass maxx maxy winSize res G (x + y * maxx)
      = heightSquareMax res G (max (x - winSize) 0) (min (maxx - 1) (x + winSize))
          (max 0 (y - winSize)) (min maxy (y + winSize)) := hmesh
  refine ⟨hm2, ?_, ?_⟩
  · have : 0 ≤ y * maxx := mul_nonneg hy0 (by omega)
    omega
  · have key : y * maxx ≤ maxy * maxx :=
      mul_le_mul_of_nonneg_right hy1 (by omega)
    rw [meshAllocSize]
    nlinarith

/-- C4 witness: the layout theorem instantiated on the 2×3 grid with the
    constant height field 5, at cell `(1, 2)`. -/
theorem mesh_layout_stride_maxx_witness :
    ((∀ a b : ℚ, -FLOAT_MAX < (fun _ _ : ℚ => (5 : ℚ)) a b) ∧ (1 : ℤ) ≤ 2 ∧
        (0 : ℤ) ≤ 2 ∧ (0 : ℤ) ≤ 0) ∧
      (windowedPass 2 2 0 1 (fun _ _ => 5) (1 + 2 * 2)
          = heightSquareMax 1 (fun _ _ => 5) (max (1 - 0) 0)
              (min (2 - 1) (1 + 0)) (max 0 (2 - 0)) (min 2 (2 + 0)) ∧
        0 ≤ (1 : ℤ) + 2 * 2 ∧ (1 : ℤ) + 2 * 2 < meshAllocSize 2 2) :=
  ⟨⟨fun _ _ => by norm_num [FLOAT_MAX], by decide, by decide, by decide⟩,
    mesh_layout_stride_maxx 2 2 0 1 (fun _ _ => 5)
      (fun _ _ => by norm_num [FLOAT_MAX]) (by decide) (by decide) (by decide)
      2 1 (by decide) (by decide) (by decide) (by decide)⟩

/- ----------------------------------------------------------------- -/
/- C5: a constant height field passes through the build unchanged. -/

theorem stdClamp_cc (v c : ℚ) : stdClamp v c c = c := by
  rw [stdClamp]
  split
  · rfl
  · split
    · rfl
    · exact le_antisymm (not_lt.mp (by assumption)) (not_lt.mp (by assumption))

theorem ratTrunc_nonneg {q : ℚ} (h : 0 ≤ q) : 0 ≤ ratTrunc q := by
  rw [ratTrunc, if_pos h]
  exact Int.floor_nonneg.mpr h

theorem heightSquareMax_const (res : ℚ) (G : ℚ → ℚ → ℚ) (H : ℚ)
    (hconst : ∀ a b : ℚ, G a b = H) (hH : -FLOAT_MAX < H)
    {xlo xhi ylo yhi : ℤ} (h1 : xlo ≤ xhi) (h2 : ylo ≤ yhi) :
    heightSquareMax res G xlo xhi ylo yhi = H := by
  have hG : ∀ a b : ℚ, -FLOAT_MAX < G a b := fun a b => by
    rw [hconst]; exact hH
  rcases heightSquareMax_attained res G hG h1 h2 with ⟨i, j, _, _, _, _, h⟩
  rw [h, hconst]

theorem blurPasses_succ (maxx maxy blurSize : ℤ) (res : ℚ) (kernel : List ℚ)
    (minH maxH : ℚ) (G : ℚ → ℚ → ℚ) (n : ℕ) (M O : ℤ → ℚ) :
    blurPasses maxx maxy blurSize res kernel minH maxH G (n + 1) (M, O)
      = blurPasses maxx maxy blurSize res kernel minH maxH G n
          (BlurVertical maxx maxy blurSize res kernel minH maxH G
            (BlurHorizontal maxx maxy blurSize res kernel minH maxH G M O) M,
           BlurHorizontal maxx maxy blurSize res kernel minH maxH G M O) :=
  rfl

/-- The blur loop of the build preserves "every cell equals `H`" on a
    constant-`H` terrain with `minHeight = maxHeight = H`: every written
    cell is clamped into `[H, H]` and the unwritten edge band is
    recovered from the previous buffer. -/
theorem blurPasses_const_cells (maxx maxy blurSize : ℤ) (res : ℚ)
    (kernel : List ℚ) (H : ℚ) (G : ℚ → ℚ → ℚ)
    (hconst : ∀ a b : ℚ, G a b = H) :
    ∀ n : ℕ, ∀ M O : ℤ → ℚ,
      (∀ x y : ℤ, 0 ≤ x → x ≤ maxx - 1 → 0 ≤ y → y ≤ maxy →
        M (x + y * maxx) = H) →
      ∀ x y : ℤ, 0 ≤ x → x ≤ maxx - 1 → 0 ≤ y → y ≤ maxy →
        (blurPasses maxx maxy blurSize res kernel H H G n (M, O)).1 (x + y * maxx)
          = H := by
  intro n
  induction n with
  | zero =>
    intro M O hM x y hx0 hx1 hy0 hy1
    exact hM x y hx0 hx1 hy0 hy1
  | succ m ih =>
    intro M O hM x y hx0 hx1 hy0 hy1
    rw [blurPasses_succ]
    apply ih _ _ ?_ x y hx0 hx1 hy0 hy1
    intro x' y' hx'0 hx'1 hy'0 hy'1
    by_cases hcase : y' = maxy
    · rw [hcase]
      have hne : ∀ a b : ℤ, 0 ≤ a → a ≤ maxx - 1 → 0 ≤ b → b ≤ maxy - 1 →
          a + b * maxx ≠ x' + maxy * maxx := by
        intro a b h1 h2 h3 h4 heq
        rcases cellIndex_inj h1 h2 hx'0 hx'1 heq with ⟨_, h5⟩
        omega
      rw [blurV_not_written maxx maxy blurSize res kernel H H G _ _ _ hne]
      exact hM x' maxy hx'0 hx'1 (by omega) le_rfl
    · have hy'' : y' ≤ maxy - 1 := by omega
      rw [blurV_written maxx maxy blurSize res kernel H H G _ _ x' y'
        hx'0 hx'1 hy'0 hy'']
      rw [blurVVal, hconst]
      exact stdClamp_cc _ H

/-- C5: for a constant height field `H` (so the global extrema are both
    `H`), after the full build every cell of the final mesh equals `H`
    exactly, for every number of blur passes. -/
theorem flat_field_mesh_exact (maxx maxy : ℤ) (res sr H : ℚ)
    (G : ℚ → ℚ → ℚ) (g : ℤ → ℚ) (n : ℕ)
    (hmx : 1 ≤ maxx) (hmy : 0 ≤ maxy) (hres : 0 < res) (hsr : 0 ≤ sr)
    (hconst : ∀ a b : ℚ, G a b = H) (hH : -FLOAT_MAX < H) :
    ∀ x y : ℤ, 0 ≤ x → x ≤ maxx - 1 → 0 ≤ y → y ≤ maxy →
      (MakeSmoothMesh maxx maxy res sr H H G g n).1 (x + y * maxx) = H := by
  intro x y hx0 hx1 hy0 hy1
  have hG : ∀ a b : ℚ, -FLOAT_MAX < G a b := fun a b => by
    rw [hconst]; exact hH
  have hw : 0 ≤ meshWinSize sr res :=
    ratTrunc_nonneg (div_nonneg hsr (le_of_lt hres))
  have hwind : ∀ x' y' : ℤ, 0 ≤ x' → x' ≤ maxx - 1 → 0 ≤ y' → y' ≤ maxy →
      windowedPass maxx maxy (meshWinSize sr res) res G (x' + y' * maxx) = H := by
    intro x' y' h1 h2 h3 h4
    have hmesh := (windowedPassUpTo_char maxx maxy (meshWinSize sr res) res G
      hG hw hmy maxy hmy le_rfl).2.2 y' x' h3 h4 h1 h2
    have hm2 : windowedPass maxx maxy (meshWinSize sr res) res G (x' + y' * maxx)
        = heightSquareMax res G (max (x' - meshWinSize sr res) 0)
            (min (maxx - 1) (x' + meshWinSize sr res))
            (max 0 (y' - meshWinSize sr res))
            (min maxy (y' + meshWinSize sr res)) := hmesh
    rw [hm2]
    exact heightSquareMax_const res G H hconst hH (by omega) (by omega)
  have hfinal := blurPasses_const_cells maxx maxy
    (meshBlurSize (meshWinSize sr res)) res
    (fillGaussianKernelFunc (meshBlurSize (meshWinSize sr res)) g) H G hconst n
    (windowedPass maxx maxy (meshWinSize sr res) res G) (fun _ => 0)
    hwind x y hx0 hx1 hy0 hy1
  exact hfinal

/-- C5 witness: the flat-field theorem instantiated on a 2×2-cell grid,
    `res = 1`, `smoothRadius = 2`, constant field 0, three blur passes,
    at cell `(1, 1)`. -/
theorem flat_field_mesh_exact_witness :
    ((1 : ℤ) ≤ 2 ∧ (0 : ℤ) ≤ 1 ∧ (0 : ℚ) < 1 ∧ (0 : ℚ) ≤ 2 ∧
        (∀ a b : ℚ, (fun _ _ : ℚ => (0 : ℚ)) a b = 0) ∧ -FLOAT_MAX < (0 : ℚ)) ∧
      (MakeSmoothMesh 2 1 1 2 0 0 (fun _ _ => 0) (fun _ => 1) 3).1 (1 + 1 * 2) = 0 :=
  ⟨⟨by decide, by decide, by decide, by decide, fun _ _ => rfl,
      by norm_num [FLOAT_MAX]⟩,
    flat_field_mesh_exact 2 1 1 2 0 (fun _ _ => 0) (fun _ => 1) 3
      (by decide) (by decide) (by decide) (by decide) (fun _ _ => rfl)
      (by norm_num [FLOAT_MAX]) 1 1 (by decide) (by decide) (by decide) (by decide)⟩
